import Mathlib

/-
Verification of the uthread cooperative user-level thread scheduler
(uthread.c / uthread.h).

The registry is a circular doubly-linked list of thread records
(struct node) with a head pointer, a size counter and an `active`
record that is outside the ring while running.  We embed the heap of
records as a function from addresses to optional records; raw C
pointers become the three-valued type `PVal` (an indeterminate
uninitialized pointer, the null pointer, or an address).  Every
pointer dereference goes through an `Option`: dereferencing an
indeterminate or null pointer, or reading an unallocated address,
yields `none`, modelling undefined behavior.  `free` is tracked in a
ghost list of freed addresses (heap cells are left in place, as stale
memory).  `malloc` success and failure in `uthread_create` is driven
by explicit boolean oracles (one per allocation in the C code).
The `while` loops of `get_priority_thread` and `cleanup_queue`
are embedded with an explicit fuel parameter.
-/

namespace Uthread

/-- A C pointer value: indeterminate (uninitialized memory), NULL, or an address. -/
inductive PVal where
  | undef : PVal
  | null : PVal
  | addr (a : Nat) : PVal
deriving DecidableEq

/-- Model of a ucontext_t produced by getcontext/makecontext in uthread_create:
the stack pointer stored into uc_stack.ss_sp, the stack size stored into
uc_stack.ss_size, and the entry function bound by makecontext. -/
structure UContext where
  stackSp : PVal
  stackSize : Nat
  funcId : Nat
deriving DecidableEq

/-- Model of struct node (a uthread record): priority, thread function,
context pointer, and the two ring links. -/
structure Node where
  priority : Int
  funcId : Nat
  context : PVal
  next : PVal
  prev : PVal
deriving DecidableEq

/-- The heap of thread records, indexed by address. -/
abbrev Heap := Nat → Option Node

/-- The whole scheduler state: the record heap, the context heap, bump
allocators for fresh addresses, the queue_t fields (head, size, active),
and ghost bookkeeping for free() calls, free(queue) and sem_destroy. -/
structure State where
  nodes : Heap
  ctxs : Nat → Option UContext
  nodeAlloc : Nat
  ctxAlloc : Nat
  stackAlloc : Nat
  head : PVal
  size : Nat
  active : PVal
  freedNodes : List Nat
  freedCtxs : List Nat
  queueFreed : Bool
  guardAlive : Bool

/-- Read the prev field of the record at address x, if allocated. -/
def prevAt (h : Heap) (x : Nat) : Option PVal := (h x).map Node.prev

/-- Read the next field of the record at address x, if allocated. -/
def nextAt (h : Heap) (x : Nat) : Option PVal := (h x).map Node.next

/-- Read the priority of the record at address x, with a junk default. -/
def prio (h : Heap) (x : Nat) : Int :=
  match h x with
  | some nd => nd.priority
  | none => 0

/-- Store v into the next field of the record at address a (UB if unallocated). -/
def storeNext (h : Heap) (a : Nat) (v : PVal) : Option Heap :=
  match h a with
  | none => none
  | some nd => some (fun x => if x = a then some { nd with next := v } else h x)

/-- Store v into the prev field of the record at address a (UB if unallocated). -/
def storePrev (h : Heap) (a : Nat) (v : PVal) : Option Heap :=
  match h a with
  | none => none
  | some nd => some (fun x => if x = a then some { nd with prev := v } else h x)

/-- Store p into the priority field of the record at address a (UB if unallocated). -/
def storePriority (h : Heap) (a : Nat) (p : Int) : Option Heap :=
  match h a with
  | none => none
  | some nd => some (fun x => if x = a then some { nd with priority := p } else h x)

/-- Embedding of add() from uthread.c: insert `item` into the circular
doubly-linked ring, in the three cases size == 0, size == 1, and size >= 2,
store by store in source order, then increment size. -/
def addOp (s : State) (item : Nat) : Option State :=
  if s.size = 0 then
    match storeNext s.nodes item (PVal.addr item) with
    | none => none
    | some h1 =>
      match storePrev h1 item (PVal.addr item) with
      | none => none
      | some h2 =>
        some { s with head := PVal.addr item, nodes := h2, size := s.size + 1 }
  else if s.size = 1 then
    match storeNext s.nodes item s.head with
    | none => none
    | some h1 =>
      match storePrev h1 item s.head with
      | none => none
      | some h2 =>
        match s.head with
        | PVal.addr hd =>
          match storeNext h2 hd (PVal.addr item) with
          | none => none
          | some h3 =>
            match storePrev h3 hd (PVal.addr item) with
            | none => none
            | some h4 => some { s with nodes := h4, size := s.size + 1 }
        | _ => none
  else
    match s.head with
    | PVal.addr hd =>
      match s.nodes hd with
      | none => none
      | some hdn =>
        match hdn.next with
        | PVal.addr hn =>
          match storePrev s.nodes hn (PVal.addr item) with
          | none => none
          | some h1 =>
            match h1 hd with
            | none => none
            | some hdn1 =>
              match storeNext h1 item hdn1.next with
              | none => none
              | some h2 =>
                match storePrev h2 item s.head with
                | none => none
                | some h3 =>
                  match storeNext h3 hd (PVal.addr item) with
                  | none => none
                  | some h4 => some { s with nodes := h4, size := s.size + 1 }
        | _ => none
    | _ => none

/-- Embedding of the scan loop of get_priority_thread(): walk prev links
from head, keeping the running minimum under a strict less-than test,
until the node whose prev is head has been visited.  Fuel-indexed. -/
def scanLoop (h : Heap) (hd : Nat) : Nat → Nat → Nat → Int → Option (Nat × Int)
  | 0, _, _, _ => none
  | fuel + 1, curr, best, bestP =>
    match h curr with
    | none => none
    | some cn =>
      if cn.prev = PVal.addr hd then some (best, bestP)
      else
        match cn.prev with
        | PVal.addr c2 =>
          match h c2 with
          | none => none
          | some c2n =>
            if c2n.priority < bestP then scanLoop h hd fuel c2 c2 c2n.priority
            else scanLoop h hd fuel c2 best bestP
        | _ => none

/-- Embedding of get_priority_thread(): returns the pointer result of the C
function (NULL on an empty queue) together with the updated state.  The
size == 1 branch hands back the head pointer without dereferencing it; the
general branch scans, then unlinks the selected record store by store. -/
def getOp (fuel : Nat) (s : State) : Option (PVal × State) :=
  if s.size = 0 then
    some (PVal.null, s)
  else if s.size = 1 then
    some (s.head, { s with head := PVal.null, size := 0 })
  else
    match s.head with
    | PVal.addr hd =>
      match s.nodes hd with
      | none => none
      | some hdn =>
        match scanLoop s.nodes hd fuel hd hd hdn.priority with
        | none => none
        | some (best, _) =>
          match s.nodes best with
          | none => none
          | some bn =>
            let s1 := if PVal.addr best = s.head then { s with head := bn.prev } else s
            match bn.prev with
            | PVal.addr bp =>
              match storeNext s1.nodes bp bn.next with
              | none => none
              | some h1 =>
                match h1 best with
                | none => none
                | some bn1 =>
                  match bn1.next with
                  | PVal.addr bnx =>
                    match storePrev h1 bnx bn1.prev with
                    | none => none
                    | some h2 =>
                      some (PVal.addr best,
                        { s1 with nodes := h2, size := s1.size - 1 })
                  | _ => none
            | _ => none
    | _ => none

/-- Embedding of the traversal loop of cleanup_queue(): follow next pointers,
recording each free() in a ghost list, until the cursor is NULL.  Following
an indeterminate pointer is UB.  Fuel-indexed; `none` means the traversal
did not complete within the given fuel (or hit UB). -/
def cleanupLoop (h : Heap) : Nat → PVal → List Nat → Option (List Nat)
  | 0, _, _ => none
  | fuel + 1, curr, freed =>
    match curr with
    | PVal.null => some freed
    | PVal.undef => none
    | PVal.addr a =>
      match h a with
      | none => none
      | some nd => cleanupLoop h fuel nd.next (freed ++ [a])

/-- Model of free() applied to a pointer value: free(NULL) is a no-op,
free of an indeterminate pointer is UB, free of an address records it. -/
def freePtr : PVal → Option (List Nat)
  | PVal.null => some []
  | PVal.undef => none
  | PVal.addr a => some [a]

/-- Dereference a thread pointer down to its ucontext, as swapcontext and
setcontext do with thread->context: the thread record must be allocated and
its context pointer must point to an allocated ucontext. -/
def ctxDeref (h : Heap) (cs : Nat → Option UContext) (p : PVal) : Option UContext :=
  match p with
  | PVal.addr a =>
    match h a with
    | some nd =>
      match nd.context with
      | PVal.addr c => cs c
      | _ => none
    | none => none
  | _ => none

/-- Embedding of system_init(): malloc the queue_t (head and active are left
indeterminate, exactly as in the C code, which only assigns size = 0) and
initialize the semaphore. -/
def initState : State :=
  { nodes := fun _ => none
    ctxs := fun _ => none
    nodeAlloc := 0
    ctxAlloc := 0
    stackAlloc := 0
    head := PVal.undef
    size := 0
    active := PVal.undef
    freedNodes := []
    freedCtxs := []
    queueFreed := false
    guardAlive := true }

/-- Embedding of uthread_create(): the three allocations (record, context,
stack) are driven by the oracles ok1, ok2, ok3.  A failed record or context
malloc returns -1; a failed stack malloc is NOT checked by the C code: the
context keeps a NULL ss_sp and the thread is still enqueued with success.
The record is allocated with the assigned priority and function and
indeterminate links (the C code assigns priority and func right after
malloc and never initializes next/prev here). -/
def createOp (s : State) (funcId : Nat) (priority : Int) (ok1 ok2 ok3 : Bool) :
    Option (Int × State) :=
  if ok1 = false then some (-1, s)
  else
    let a := s.nodeAlloc
    let s1 : State := { s with
      nodes := fun x => if x = a then
          some { priority := priority, funcId := funcId, context := PVal.undef,
                 next := PVal.undef, prev := PVal.undef }
        else s.nodes x
      nodeAlloc := a + 1 }
    if ok2 = false then some (-1, s1)
    else
      let c := s1.ctxAlloc
      let sp := if ok3 then PVal.addr s1.stackAlloc else PVal.null
      let s2 : State := { s1 with
        ctxs := fun x => if x = c then
            some { stackSp := sp, stackSize := 16384, funcId := funcId }
          else s1.ctxs x
        ctxAlloc := c + 1
        stackAlloc := if ok3 then s1.stackAlloc + 1 else s1.stackAlloc
        nodes := fun x => if x = a then
            some { priority := priority, funcId := funcId, context := PVal.addr c,
                   next := PVal.undef, prev := PVal.undef }
          else s1.nodes x }
      match addOp s2 a with
      | none => none
      | some s3 => some (0, s3)

/-- Embedding of uthread_yield(): if the queue is empty return -1 with the
state untouched; otherwise store the new priority into the active record,
select via get_priority_thread, reinsert the caller, make the selected
record active, and swap contexts.  The Int result is the C return value. -/
def yieldOp (fuel : Nat) (s : State) (priority : Int) : Option (Int × State) :=
  if s.size = 0 then
    some (-1, s)
  else
    match s.active with
    | PVal.addr act =>
      match storePriority s.nodes act priority with
      | none => none
      | some h1 =>
        match getOp fuel { s with nodes := h1 } with
        | none => none
        | some (ret, s2) =>
          match addOp s2 act with
          | none => none
          | some s3 =>
            let s4 : State := { s3 with active := ret }
            match ctxDeref s4.nodes s4.ctxs (PVal.addr act),
                  ctxDeref s4.nodes s4.ctxs ret with
            | some _, some _ => some (0, s4)
            | _, _ => none
    | _ => none

/-- Result of uthread_exit(): either the whole process terminates with the
given exit code, or control is transferred into the context of the target
record via setcontext and never returns to the exiting thread. -/
inductive ExitRes where
  | terminated (code : Int) (s : State)
  | switched (target : Nat) (s : State)

/-- The state carried by an exit result. -/
def resState : ExitRes → State
  | ExitRes.terminated _ s => s
  | ExitRes.switched _ s => s

/-- The process exit code carried by an exit result, if it terminated. -/
def resCode : ExitRes → Option Int
  | ExitRes.terminated c _ => some c
  | ExitRes.switched _ _ => none

/-- The switch target carried by an exit result, if it switched. -/
def resTarget : ExitRes → Option Nat
  | ExitRes.terminated _ _ => none
  | ExitRes.switched t _ => some t

/-- Embedding of uthread_exit(): with an empty queue, run cleanup_queue
(traverse from head freeing records, then free(active), then free(queue)),
destroy the semaphore and exit(0); otherwise select the highest-priority
record, free the exiting active record (only the record: the C code never
frees its context), make the selected record active and setcontext into it. -/
def exitOp (fuel : Nat) (s : State) : Option ExitRes :=
  if s.size = 0 then
    match cleanupLoop s.nodes fuel s.head [] with
    | none => none
    | some ringFreed =>
      match freePtr s.active with
      | none => none
      | some actFreed =>
        some (ExitRes.terminated 0
          { s with freedNodes := s.freedNodes ++ ringFreed ++ actFreed
                   queueFreed := true
                   guardAlive := false })
  else
    match getOp fuel s with
    | none => none
    | some (ret, s2) =>
      match freePtr s2.active with
      | none => none
      | some actFreed =>
        let s3 : State := { s2 with freedNodes := s2.freedNodes ++ actFreed, active := ret }
        match ret with
        | PVal.addr tid =>
          match ctxDeref s3.nodes s3.ctxs (PVal.addr tid) with
          | some _ => some (ExitRes.switched tid s3)
          | none => none
        | _ => none

/-! ## The ring invariant

A non-empty ring is represented by the list of its member addresses in
prev-traversal order starting from head (which, because add() always
inserts at head->next, is also the order oldest-first in which the
currently-ready records were enqueued).  Adjacent members x, y of the
cyclic extension l ++ [l.head] are doubly linked: x.prev = y and
y.next = x. -/

/-- x's prev pointer is the address y. -/
def prevStep (h : Heap) (x y : Nat) : Prop := prevAt h x = some (PVal.addr y)

/-- x's next pointer is the address y. -/
def nextStep (h : Heap) (x y : Nat) : Prop := nextAt h x = some (PVal.addr y)

/-- x and y are doubly linked neighbors: x.prev = y and y.next = x. -/
def linkIs (h : Heap) (x y : Nat) : Prop :=
  prevAt h x = some (PVal.addr y) ∧ nextAt h y = some (PVal.addr x)

instance (h : Heap) : DecidableRel (linkIs h) := fun x y =>
  inferInstanceAs
    (Decidable (prevAt h x = some (PVal.addr y) ∧ nextAt h y = some (PVal.addr x)))

instance (h : Heap) : DecidableRel (prevStep h) := fun x y =>
  inferInstanceAs (Decidable (prevAt h x = some (PVal.addr y)))

/-- The heap h carries a well-formed circular doubly-linked ring whose
members, in prev-order from the head, are exactly the list l. -/
def RingRep (h : Heap) (l : List Nat) : Prop :=
  l.Nodup ∧ List.Chain' (linkIs h) (l ++ l.take 1)

/-- A computation-friendly decision procedure for Chain', used so that
concrete ring states can be checked by kernel reduction. -/
def decChain' {R : Nat → Nat → Prop} (dr : DecidableRel R) :
    ∀ (L : List Nat), Decidable (List.Chain' R L)
  | [] => isTrue List.chain'_nil
  | [a] => isTrue (List.chain'_singleton a)
  | a :: b :: L =>
    match dr a b, decChain' dr (b :: L) with
    | isTrue h1, isTrue h2 => isTrue (List.chain'_cons.mpr ⟨h1, h2⟩)
    | isFalse h1, _ => isFalse (fun hc => h1 (List.chain'_cons.mp hc).1)
    | _, isFalse h2 => isFalse (fun hc => h2 (List.chain'_cons.mp hc).2)

instance (priority := 2000) (h : Heap) (L : List Nat) :
    Decidable (List.Chain' (linkIs h) L) :=
  decChain' inferInstance L

instance (h : Heap) (l : List Nat) : Decidable (RingRep h l) :=
  inferInstanceAs (Decidable (l.Nodup ∧ List.Chain' (linkIs h) (l ++ l.take 1)))

/-- The queue head field agrees with the representation list: it points at
the first member when the ring is non-empty (it is unconstrained when the
ring is empty, matching the C code, which leaves it indeterminate after
system_init and NULL after draining). -/
def headOK : PVal → List Nat → Prop
  | _, [] => True
  | h, a :: _ => h = PVal.addr a

instance : ∀ (h : PVal) (l : List Nat), Decidable (headOK h l)
  | _, [] => isTrue trivial
  | h, a :: _ => inferInstanceAs (Decidable (h = PVal.addr a))

/-- Well-formed queue state with ring representation list l: the size field
counts the members, head points at the first member, and the heap links
form the circular ring. -/
def QWF (s : State) (l : List Nat) : Prop :=
  s.size = l.length ∧ headOK s.head l ∧ RingRep s.nodes l

instance (s : State) (l : List Nat) : Decidable (QWF s l) :=
  inferInstanceAs
    (Decidable (s.size = l.length ∧ headOK s.head l ∧ RingRep s.nodes l))

/-! ## Store lemmas -/

theorem storeNext_some {h : Heap} {a : Nat} {nd : Node} (v : PVal)
    (ha : h a = some nd) :
    storeNext h a v = some (fun x => if x = a then some { nd with next := v } else h x) := by
  unfold storeNext
  rw [ha]

theorem storePrev_some {h : Heap} {a : Nat} {nd : Node} (v : PVal)
    (ha : h a = some nd) :
    storePrev h a v = some (fun x => if x = a then some { nd with prev := v } else h x) := by
  unfold storePrev
  rw [ha]

theorem storePriority_some {h : Heap} {a : Nat} {nd : Node} (p : Int)
    (ha : h a = some nd) :
    storePriority h a p =
      some (fun x => if x = a then some { nd with priority := p } else h x) := by
  unfold storePriority
  rw [ha]

theorem storeNext_prevAt {h h' : Heap} {a : Nat} {v : PVal}
    (hs : storeNext h a v = some h') : ∀ x, prevAt h' x = prevAt h x := by
  intro x
  unfold storeNext at hs
  cases ha : h a with
  | none => rw [ha] at hs; exact absurd hs (by simp)
  | some nd =>
    rw [ha] at hs
    simp only [Option.some.injEq] at hs
    subst hs
    unfold prevAt
    by_cases hx : x = a
    · subst hx; simp [ha]
    · simp [hx]

theorem storeNext_nextAt_self {h h' : Heap} {a : Nat} {v : PVal}
    (hs : storeNext h a v = some h') : nextAt h' a = some v := by
  unfold storeNext at hs
  cases ha : h a with
  | none => rw [ha] at hs; exact absurd hs (by simp)
  | some nd =>
    rw [ha] at hs
    simp only [Option.some.injEq] at hs
    subst hs
    unfold nextAt
    simp

theorem storeNext_nextAt_ne {h h' : Heap} {a : Nat} {v : PVal}
    (hs : storeNext h a v = some h') {x : Nat} (hx : x ≠ a) :
    nextAt h' x = nextAt h x := by
  unfold storeNext at hs
  cases ha : h a with
  | none => rw [ha] at hs; exact absurd hs (by simp)
  | some nd =>
    rw [ha] at hs
    simp only [Option.some.injEq] at hs
    subst hs
    unfold nextAt
    simp [hx]

theorem storePrev_nextAt {h h' : Heap} {a : Nat} {v : PVal}
    (hs : storePrev h a v = some h') : ∀ x, nextAt h' x = nextAt h x := by
  intro x
  unfold storePrev at hs
  cases ha : h a with
  | none => rw [ha] at hs; exact absurd hs (by simp)
  | some nd =>
    rw [ha] at hs
    simp only [Option.some.injEq] at hs
    subst hs
    unfold nextAt
    by_cases hx : x = a
    · subst hx; simp [ha]
    · simp [hx]

theorem storePrev_prevAt_self {h h' : Heap} {a : Nat} {v : PVal}
    (hs : storePrev h a v = some h') : prevAt h' a = some v := by
  unfold storePrev at hs
  cases ha : h a with
  | none => rw [ha] at hs; exact absurd hs (by simp)
  | some nd =>
    rw [ha] at hs
    simp only [Option.some.injEq] at hs
    subst hs
    unfold prevAt
    simp

theorem storePrev_prevAt_ne {h h' : Heap} {a : Nat} {v : PVal}
    (hs : storePrev h a v = some h') {x : Nat} (hx : x ≠ a) :
    prevAt h' x = prevAt h x := by
  unfold storePrev at hs
  cases ha : h a with
  | none => rw [ha] at hs; exact absurd hs (by simp)
  | some nd =>
    rw [ha] at hs
    simp only [Option.some.injEq] at hs
    subst hs
    unfold prevAt
    simp [hx]

theorem storeNext_ctx {h h' : Heap} {a : Nat} {v : PVal}
    (hs : storeNext h a v = some h') :
    ∀ x, (h' x).map Node.context = (h x).map Node.context := by
  intro x
  unfold storeNext at hs
  cases ha : h a with
  | none => rw [ha] at hs; exact absurd hs (by simp)
  | some nd =>
    rw [ha] at hs
    simp only [Option.some.injEq] at hs
    subst hs
    by_cases hx : x = a
    · subst hx; simp [ha]
    · simp [hx]

theorem storePrev_ctx {h h' : Heap} {a : Nat} {v : PVal}
    (hs : storePrev h a v = some h') :
    ∀ x, (h' x).map Node.context = (h x).map Node.context := by
  intro x
  unfold storePrev at hs
  cases ha : h a with
  | none => rw [ha] at hs; exact absurd hs (by simp)
  | some nd =>
    rw [ha] at hs
    simp only [Option.some.injEq] at hs
    subst hs
    by_cases hx : x = a
    · subst hx; simp [ha]
    · simp [hx]

theorem storeNext_prio {h h' : Heap} {a : Nat} {v : PVal}
    (hs : storeNext h a v = some h') : ∀ x, prio h' x = prio h x := by
  intro x
  unfold storeNext at hs
  cases ha : h a with
  | none => rw [ha] at hs; exact absurd hs (by simp)
  | some nd =>
    rw [ha] at hs
    simp only [Option.some.injEq] at hs
    subst hs
    unfold prio
    by_cases hx : x = a
    · subst hx; simp [ha]
    · simp [hx]

theorem storePrev_prio {h h' : Heap} {a : Nat} {v : PVal}
    (hs : storePrev h a v = some h') : ∀ x, prio h' x = prio h x := by
  intro x
  unfold storePrev at hs
  cases ha : h a with
  | none => rw [ha] at hs; exact absurd hs (by simp)
  | some nd =>
    rw [ha] at hs
    simp only [Option.some.injEq] at hs
    subst hs
    unfold prio
    by_cases hx : x = a
    · subst hx; simp [ha]
    · simp [hx]

theorem storeNext_apply_ne {h h' : Heap} {a : Nat} {v : PVal}
    (hs : storeNext h a v = some h') {x : Nat} (hx : x ≠ a) : h' x = h x := by
  unfold storeNext at hs
  cases ha : h a with
  | none => rw [ha] at hs; exact absurd hs (by simp)
  | some nd =>
    rw [ha] at hs
    simp only [Option.some.injEq] at hs
    subst hs
    simp [hx]

theorem storePrev_apply_ne {h h' : Heap} {a : Nat} {v : PVal}
    (hs : storePrev h a v = some h') {x : Nat} (hx : x ≠ a) : h' x = h x := by
  unfold storePrev at hs
  cases ha : h a with
  | none => rw [ha] at hs; exact absurd hs (by simp)
  | some nd =>
    rw [ha] at hs
    simp only [Option.some.injEq] at hs
    subst hs
    simp [hx]

theorem storePriority_prevAt {h h' : Heap} {a : Nat} {p : Int}
    (hs : storePriority h a p = some h') : ∀ x, prevAt h' x = prevAt h x := by
  intro x
  unfold storePriority at hs
  cases ha : h a with
  | none => rw [ha] at hs; exact absurd hs (by simp)
  | some nd =>
    rw [ha] at hs
    simp only [Option.some.injEq] at hs
    subst hs
    unfold prevAt
    by_cases hx : x = a
    · subst hx; simp [ha]
    · simp [hx]

theorem storePriority_nextAt {h h' : Heap} {a : Nat} {p : Int}
    (hs : storePriority h a p = some h') : ∀ x, nextAt h' x = nextAt h x := by
  intro x
  unfold storePriority at hs
  cases ha : h a with
  | none => rw [ha] at hs; exact absurd hs (by simp)
  | some nd =>
    rw [ha] at hs
    simp only [Option.some.injEq] at hs
    subst hs
    unfold nextAt
    by_cases hx : x = a
    · subst hx; simp [ha]
    · simp [hx]

theorem storePriority_ctx {h h' : Heap} {a : Nat} {p : Int}
    (hs : storePriority h a p = some h') :
    ∀ x, (h' x).map Node.context = (h x).map Node.context := by
  intro x
  unfold storePriority at hs
  cases ha : h a with
  | none => rw [ha] at hs; exact absurd hs (by simp)
  | some nd =>
    rw [ha] at hs
    simp only [Option.some.injEq] at hs
    subst hs
    by_cases hx : x = a
    · subst hx; simp [ha]
    · simp [hx]

theorem storePriority_apply_ne {h h' : Heap} {a : Nat} {p : Int}
    (hs : storePriority h a p = some h') {x : Nat} (hx : x ≠ a) : h' x = h x := by
  unfold storePriority at hs
  cases ha : h a with
  | none => rw [ha] at hs; exact absurd hs (by simp)
  | some nd =>
    rw [ha] at hs
    simp only [Option.some.injEq] at hs
    subst hs
    simp [hx]

/-! ## The scan of get_priority_thread as a fold -/

/-- The running-minimum step of the scan, as a fold over the list of nodes
visited after the seed: strict less-than, so an equal later priority never
replaces the current best. -/
def selFold (h : Heap) (t : List Nat) (acc : Nat × Int) : Nat × Int :=
  t.foldl (fun acc x => if prio h x < acc.2 then (x, prio h x) else acc) acc

theorem selFold_nil (h : Heap) (acc : Nat × Int) : selFold h [] acc = acc := rfl

theorem selFold_cons (h : Heap) (x : Nat) (t : List Nat) (b : Nat) (p : Int) :
    selFold h (x :: t) (b, p) =
      selFold h t (if prio h x < p then (x, prio h x) else (b, p)) := by
  unfold selFold
  simp only [List.foldl_cons]

/-- The fold returns the first member of the seed-extended visit list that
attains the minimum priority: everything strictly before it has strictly
greater priority, and nothing anywhere has smaller priority. -/
theorem selFold_split (h : Heap) :
    ∀ (t : List Nat) (b : Nat) (p : Int), prio h b = p →
      ∃ pre r post, b :: t = pre ++ r :: post ∧
        selFold h t (b, p) = (r, prio h r) ∧
        (∀ x ∈ pre, prio h r < prio h x) ∧
        (∀ x ∈ b :: t, prio h r ≤ prio h x) := by
  intro t
  induction t with
  | nil =>
    intro b p hb
    refine ⟨[], b, [], rfl, ?_, ?_, ?_⟩
    · rw [selFold_nil, hb]
    · intro x hx
      exact absurd hx (List.not_mem_nil x)
    · intro x hx
      rw [List.mem_singleton] at hx
      exact le_of_eq (by rw [hx])
  | cons x t' ih =>
    intro b p hb
    rw [selFold_cons]
    by_cases hlt : prio h x < p
    · rw [if_pos hlt]
      obtain ⟨pre', r, post', heq, hfold, hstrict, hmin⟩ := ih x (prio h x) rfl
      have hrx : prio h r ≤ prio h x := hmin x (List.mem_cons_self x t')
      have hrb : prio h r < prio h b := by
        rw [hb]
        exact lt_of_le_of_lt hrx hlt
      refine ⟨b :: pre', r, post', ?_, hfold, ?_, ?_⟩
      · rw [List.cons_append, ← heq]
      · intro y hy
        rcases List.mem_cons.mp hy with hy | hy
        · rw [hy]
          exact hrb
        · exact hstrict y hy
      · intro y hy
        rcases List.mem_cons.mp hy with hy | hy
        · rw [hy]
          exact le_of_lt hrb
        · exact hmin y hy
    · rw [if_neg hlt]
      obtain ⟨pre', r, post', heq, hfold, hstrict, hmin⟩ := ih b p hb
      have hple : p ≤ prio h x := le_of_not_lt hlt
      cases pre' with
      | nil =>
        simp only [List.nil_append, List.cons.injEq] at heq
        refine ⟨[], r, x :: t', by simp [heq.1], hfold, ?_, ?_⟩
        · intro y hy
          exact absurd hy (List.not_mem_nil y)
        · intro y hy
          rcases List.mem_cons.mp hy with hy | hy
          · rw [hy]
            exact hmin b (List.mem_cons_self b t')
          · rcases List.mem_cons.mp hy with hy | hy
            · rw [hy]
              calc prio h r = prio h b := by rw [heq.1]
                _ = p := hb
                _ ≤ prio h x := hple
            · exact hmin y (List.mem_cons_of_mem b hy)
      | cons q pre'' =>
        simp only [List.cons_append, List.cons.injEq] at heq
        have hrq : prio h r < prio h b := by
          rw [heq.1]
          exact hstrict q (List.mem_cons_self q pre'')
        refine ⟨b :: x :: pre'', r, post', ?_, hfold, ?_, ?_⟩
        · simp [heq.2]
        · intro y hy
          rcases List.mem_cons.mp hy with hy | hy
          · rw [hy]
            exact hrq
          · rcases List.mem_cons.mp hy with hy | hy
            · rw [hy]
              calc prio h r < prio h b := hrq
                _ = p := hb
                _ ≤ prio h x := hple
            · exact hstrict y (List.mem_cons_of_mem q hy)
        · intro y hy
          rcases List.mem_cons.mp hy with hy | hy
          · rw [hy]
            exact hmin b (List.mem_cons_self b t')
          · rcases List.mem_cons.mp hy with hy | hy
            · rw [hy]
              refine le_of_lt (lt_of_lt_of_le ?_ hple)
              rw [← hb]
              exact hrq
            · exact hmin y (List.mem_cons_of_mem b hy)

/-! ## Chain helpers -/

theorem prevStep_elim {h : Heap} {x y : Nat} (hp : prevStep h x y) :
    ∃ nd, h x = some nd ∧ nd.prev = PVal.addr y := by
  unfold prevStep prevAt at hp
  cases hx : h x with
  | none => rw [hx] at hp; exact absurd hp (by simp)
  | some nd =>
    rw [hx] at hp
    simp only [Option.map_some', Option.some.injEq] at hp
    exact ⟨nd, rfl, hp⟩

theorem linkIs_prev {h : Heap} {x y : Nat} (hl : linkIs h x y) :
    ∃ nd, h x = some nd ∧ nd.prev = PVal.addr y :=
  prevStep_elim hl.1

theorem linkIs_next {h : Heap} {x y : Nat} (hl : linkIs h x y) :
    ∃ nd, h y = some nd ∧ nd.next = PVal.addr x := by
  have hn := hl.2
  unfold nextAt at hn
  cases hy : h y with
  | none => rw [hy] at hn; exact absurd hn (by simp)
  | some nd =>
    rw [hy] at hn
    simp only [Option.map_some', Option.some.injEq] at hn
    exact ⟨nd, rfl, hn⟩

theorem chain'_cons_head {R : Nat → Nat → Prop} {b : Nat} {L : List Nat} (hne : L ≠ [])
    (hc : List.Chain' R (b :: L)) : ∃ y, L.head? = some y ∧ R b y := by
  cases L with
  | nil => exact absurd rfl hne
  | cons y L' => exact ⟨y, rfl, (List.chain'_cons.mp hc).1⟩

/-- Transfer a doubly-linked chain across a heap change that preserves all
prev fields except possibly at the last element and all next fields except
possibly at the first element. -/
theorem chain'_linkIs_mono (h h' : Heap) :
    ∀ (L : List Nat),
      (∀ x ∈ L.dropLast, prevAt h' x = prevAt h x) →
      (∀ x ∈ L.tail, nextAt h' x = nextAt h x) →
      List.Chain' (linkIs h) L → List.Chain' (linkIs h') L
  | [], _, _, _ => List.chain'_nil
  | [x], _, _, _ => List.chain'_singleton x
  | x :: y :: L, hp, hn, hc => by
    rw [List.chain'_cons] at hc ⊢
    have hxmem : x ∈ (x :: y :: L).dropLast := by
      simp [List.dropLast]
    have hymem : y ∈ (x :: y :: L).tail := List.mem_cons_self y L
    refine ⟨⟨?_, ?_⟩, ?_⟩
    · rw [hp x hxmem]; exact hc.1.1
    · rw [hn y hymem]; exact hc.1.2
    · refine chain'_linkIs_mono h h' (y :: L) ?_ ?_ hc.2
      · intro z hz
        refine hp z ?_
        simp only [List.dropLast] at hz ⊢
        cases L with
        | nil => exact absurd hz (List.not_mem_nil z)
        | cons w L' => exact List.mem_cons_of_mem x hz
      · intro z hz
        exact hn z (List.mem_cons_of_mem y hz)

/-- The cyclic chain carried by a non-empty ring representation. -/
theorem ringRep_cons_chain {h : Heap} {a0 : Nat} {t : List Nat}
    (hr : RingRep h (a0 :: t)) :
    List.Chain' (linkIs h) ((a0 :: t) ++ [a0]) := hr.2

/-- In a cyclic chain some member is related to the closing element. -/
theorem chain'_wrap_last {R : Nat → Nat → Prop} :
    ∀ (L : List Nat) (a z : Nat),
      List.Chain' R (a :: (L ++ [z])) → ∃ x ∈ a :: L, R x z
  | [], a, z, hc => ⟨a, List.mem_cons_self a [], (List.chain'_cons.mp hc).1⟩
  | w :: L', a, z, hc => by
    have hc2 := (List.chain'_cons.mp hc).2
    obtain ⟨x, hx, hxz⟩ := chain'_wrap_last L' w z hc2
    exact ⟨x, List.mem_cons_of_mem a hx, hxz⟩

/-- Every member of a well-formed ring is allocated. -/
theorem ring_alloc {h : Heap} {a0 : Nat} {t : List Nat} (hr : RingRep h (a0 :: t)) :
    ∀ x ∈ a0 :: t, ∃ nd, h x = some nd := by
  intro x hx
  obtain ⟨u, v, huv⟩ := List.append_of_mem hx
  have hc := ringRep_cons_chain hr
  rw [huv, List.append_assoc, List.cons_append] at hc
  have hc2 := (List.chain'_append.mp hc).2.1
  have hvne : v ++ [a0] ≠ [] := by simp
  obtain ⟨y, _, hxy⟩ := chain'_cons_head hvne hc2
  obtain ⟨nd, hnd, _⟩ := linkIs_prev hxy
  exact ⟨nd, hnd⟩

/-- In a well-formed ring, every member's next pointer is the address of a
member: no next pointer in a non-empty ring is ever NULL. -/
theorem ring_next_mem {h : Heap} {a0 : Nat} {t : List Nat} (hr : RingRep h (a0 :: t)) :
    ∀ y ∈ a0 :: t, ∃ x ∈ a0 :: t, nextAt h y = some (PVal.addr x) := by
  intro y hy
  obtain ⟨u, v, huv⟩ := List.append_of_mem hy
  have hc := ringRep_cons_chain hr
  cases u with
  | nil =>
    simp only [List.nil_append, List.cons.injEq] at huv
    have hc' : List.Chain' (linkIs h) (a0 :: (t ++ [a0])) := by
      rw [← List.cons_append]
      exact hc
    obtain ⟨x, hx, hxy⟩ := chain'_wrap_last t a0 a0 hc'
    refine ⟨x, hx, ?_⟩
    rw [← huv.1]
    exact hxy.2
  | cons q u' =>
    have hu : q :: u' ≠ [] := by simp
    rw [huv, List.append_assoc] at hc
    have hj := (List.chain'_append.mp hc).2.2
    have hlk : linkIs h ((q :: u').getLast hu) y := by
      refine hj ((q :: u').getLast hu) ?_ y ?_
      · rw [List.getLast?_eq_getLast_of_ne_nil hu]
        simp
      · rw [List.cons_append]
        exact rfl
    refine ⟨(q :: u').getLast hu, ?_, hlk.2⟩
    rw [huv]
    exact List.mem_append_left _ (List.getLast_mem hu)

/-- The prev-pointer walk carried by a non-empty ring: starting at the head,
following prev visits the members in list order and closes back at the head. -/
theorem ring_prevChain {h : Heap} {a0 : Nat} {t : List Nat} (hr : RingRep h (a0 :: t)) :
    List.Chain' (prevStep h) (a0 :: (t ++ [a0])) := by
  have hc := ringRep_cons_chain hr
  rw [List.cons_append] at hc
  exact List.Chain'.imp (fun x y hxy => hxy.1) hc

/-- The scan loop of get_priority_thread computes exactly the strict
running-minimum fold over the members it visits, given enough fuel:
starting at `curr`, it walks the prev-chain `t` and stops at the node whose
prev pointer is the head. -/
theorem scanLoop_spec (h : Heap) (hd : Nat) :
    ∀ (t : List Nat) (fuel curr best : Nat) (bestP : Int),
      t.length < fuel →
      List.Chain' (prevStep h) (curr :: (t ++ [hd])) →
      hd ∉ t →
      scanLoop h hd fuel curr best bestP = some (selFold h t (best, bestP)) := by
  intro t
  induction t with
  | nil =>
    intro fuel curr best bestP hfuel hc hhd
    obtain ⟨f, rfl⟩ : ∃ f, fuel = f + 1 := ⟨fuel - 1, by omega⟩
    have hp : prevStep h curr hd := by
      rw [List.nil_append] at hc
      exact (List.chain'_cons.mp hc).1
    obtain ⟨cn, hcn, hprev⟩ := prevStep_elim hp
    simp only [scanLoop, hcn]
    rw [hprev]
    simp [selFold_nil]
  | cons b t' ih =>
    intro fuel curr best bestP hfuel hc hhd
    obtain ⟨f, rfl⟩ : ∃ f, fuel = f + 1 := ⟨fuel - 1, by omega⟩
    rw [List.cons_append] at hc
    have hp : prevStep h curr b := (List.chain'_cons.mp hc).1
    have hc2 : List.Chain' (prevStep h) (b :: (t' ++ [hd])) := (List.chain'_cons.mp hc).2
    obtain ⟨cn, hcn, hprev⟩ := prevStep_elim hp
    have hbhd : b ≠ hd := by
      intro hbe
      exact hhd (by rw [← hbe]; exact List.mem_cons_self b t')
    have hbne : t' ++ [hd] ≠ [] := by simp
    obtain ⟨y, _, hby⟩ := chain'_cons_head hbne hc2
    obtain ⟨bn, hbn, _⟩ := prevStep_elim hby
    have hpb : prio h b = bn.priority := by
      unfold prio
      rw [hbn]
    have hcond : ¬(PVal.addr b = PVal.addr hd) := by
      simp only [PVal.addr.injEq]
      exact hbhd
    simp only [scanLoop, hcn, hprev, if_neg hcond, hbn]
    rw [selFold_cons]
    have hfuel' : t'.length < f := by
      simp only [List.length_cons] at hfuel
      omega
    have hhd' : hd ∉ t' := fun hm => hhd (List.mem_cons_of_mem b hm)
    by_cases hlt : bn.priority < bestP
    · rw [if_pos hlt, if_pos (by rw [hpb]; exact hlt), ← hpb]
      exact ih f b b (prio h b) hfuel' hc2 hhd'
    · rw [if_neg hlt, if_neg (by rw [hpb]; exact hlt)]
      exact ih f b best bestP hfuel' hc2 hhd'

/-! ## Pointer walks for the connectivity invariant -/

/-- Iterate a pointer-valued field reader k times from address a. -/
def iterStep (f : Nat → Option PVal) : Nat → Nat → Option Nat
  | 0, a => some a
  | k + 1, a =>
    match f a with
    | some (PVal.addr b) => iterStep f k b
    | _ => none

/-- Follow next pointers k times from address a. -/
def iterN (h : Heap) : Nat → Nat → Option Nat := iterStep (nextAt h)

/-- Follow prev pointers k times from address a. -/
def iterP (h : Heap) : Nat → Nat → Option Nat := iterStep (prevAt h)

theorem iterStep_chain (f : Nat → Option PVal) :
    ∀ (W : List Nat) (a : Nat),
      List.Chain' (fun x y => f x = some (PVal.addr y)) (a :: W) →
      iterStep f W.length a = some ((a :: W).getLast (by simp))
  | [], a, _ => rfl
  | b :: W', a, hc => by
    have hstep : f a = some (PVal.addr b) := (List.chain'_cons.mp hc).1
    have hc2 := (List.chain'_cons.mp hc).2
    have ih := iterStep_chain f W' b hc2
    simp only [List.length_cons, iterStep, hstep]
    rw [ih]
    congr 1

/-- The next-pointer walk carried by a non-empty ring: from the head,
following next visits the members in reverse list order and closes back at
the head. -/
theorem ring_nextChain {h : Heap} {a0 : Nat} {t : List Nat} (hr : RingRep h (a0 :: t)) :
    List.Chain' (nextStep h) (a0 :: (t.reverse ++ [a0])) := by
  have hc := ringRep_cons_chain hr
  have hflip : List.Chain' (flip (nextStep h)) ((a0 :: t) ++ [a0]) :=
    List.Chain'.imp (fun x y hxy => hxy.2) hc
  have hrev := List.chain'_reverse.mpr hflip
  have hre : ((a0 :: t) ++ [a0]).reverse = a0 :: (t.reverse ++ [a0]) := by
    simp
  rw [hre] at hrev
  exact hrev

/-- Following prev from the head of a well-formed ring of n members comes
back to the head after exactly n steps. -/
theorem ring_iterP {h : Heap} {a0 : Nat} {t : List Nat} (hr : RingRep h (a0 :: t)) :
    iterP h (a0 :: t).length a0 = some a0 := by
  have hc := ring_prevChain hr
  have hw := iterStep_chain (prevAt h) (t ++ [a0]) a0 (by
    refine List.Chain'.imp ?_ hc
    intro x y hxy
    exact hxy)
  have hlen : (t ++ [a0]).length = (a0 :: t).length := by simp
  have hlast : (a0 :: (t ++ [a0])).getLast (by simp) = a0 :=
    List.getLast_append_singleton (a0 :: t)
  rw [hlen] at hw
  rw [hlast] at hw
  exact hw

/-- Following next from the head of a well-formed ring of n members comes
back to the head after exactly n steps. -/
theorem ring_iterN {h : Heap} {a0 : Nat} {t : List Nat} (hr : RingRep h (a0 :: t)) :
    iterN h (a0 :: t).length a0 = some a0 := by
  have hc := ring_nextChain hr
  have hw := iterStep_chain (nextAt h) (t.reverse ++ [a0]) a0 (by
    refine List.Chain'.imp ?_ hc
    intro x y hxy
    exact hxy)
  have hlen : (t.reverse ++ [a0]).length = (a0 :: t).length := by simp
  have hlast : (a0 :: (t.reverse ++ [a0])).getLast (by simp) = a0 :=
    List.getLast_append_singleton (a0 :: t.reverse)
  rw [hlen] at hw
  rw [hlast] at hw
  exact hw

/-! ## Insertion preserves the ring invariant -/

theorem storeNext_exists {h : Heap} {a : Nat} {nd : Node} (v : PVal) (ha : h a = some nd) :
    ∃ h', storeNext h a v = some h' ∧ h' a = some { nd with next := v } := by
  refine ⟨_, storeNext_some v ha, ?_⟩
  simp

theorem storePrev_exists {h : Heap} {a : Nat} {nd : Node} (v : PVal) (ha : h a = some nd) :
    ∃ h', storePrev h a v = some h' ∧ h' a = some { nd with prev := v } := by
  refine ⟨_, storePrev_some v ha, ?_⟩
  simp

theorem storePriority_exists {h : Heap} {a : Nat} {nd : Node} (p : Int) (ha : h a = some nd) :
    ∃ h', storePriority h a p = some h' ∧ h' a = some { nd with priority := p } := by
  refine ⟨_, storePriority_some p ha, ?_⟩
  simp

theorem nodup_getLast_not_dropLast {l : List Nat} (hl : l.Nodup) (hne : l ≠ []) :
    l.getLast hne ∉ l.dropLast := by
  intro hmem
  have hdg := List.dropLast_append_getLast hne
  rw [← hdg] at hl
  have hd := List.disjoint_of_nodup_append hl
  exact hd hmem (List.mem_singleton.mpr rfl)

/-- add() preserves the queue invariant: inserting a fresh allocated record
into a well-formed queue with representation list l succeeds and yields a
well-formed queue whose representation list is l ++ [item] (the new record
is the newest neighbor of head), leaving priorities, context fields and all
non-ring state unchanged. -/
theorem addOp_spec (s : State) (l : List Nat) (item : Nat) (nd : Node)
    (hwf : QWF s l) (hfresh : item ∉ l) (hnd : s.nodes item = some nd) :
    ∃ s', addOp s item = some s' ∧ QWF s' (l ++ [item]) ∧
      (∀ x, (s'.nodes x).map Node.context = (s.nodes x).map Node.context) ∧
      (∀ x, prio s'.nodes x = prio s.nodes x) ∧
      s'.active = s.active ∧ s'.ctxs = s.ctxs ∧
      s'.freedNodes = s.freedNodes ∧ s'.freedCtxs = s.freedCtxs ∧
      s'.guardAlive = s.guardAlive ∧ s'.queueFreed = s.queueFreed := by
  obtain ⟨hsz, hhead, hnodup, hchain⟩ := hwf
  cases l with
  | nil =>
    have hsz0 : s.size = 0 := by
      rw [hsz]
      rfl
    obtain ⟨h1, h1eq, h1item⟩ := storeNext_exists (PVal.addr item) hnd
    obtain ⟨h2, h2eq, h2item⟩ := storePrev_exists (PVal.addr item) h1item
    refine ⟨{ s with head := PVal.addr item, nodes := h2, size := s.size + 1 },
      ?_, ⟨?_, ?_, ?_, ?_⟩, ?_, ?_, rfl, rfl, rfl, rfl, rfl, rfl⟩
    · simp only [addOp, hsz0, if_pos, h1eq, h2eq]
    · simp [hsz0]
    · rfl
    · simp
    · have hlink : linkIs h2 item item := by
        constructor
        · exact storePrev_prevAt_self h2eq
        · rw [storePrev_nextAt h2eq item]
          exact storeNext_nextAt_self h1eq
      exact List.chain'_cons.mpr ⟨hlink, List.chain'_singleton item⟩
    · intro x
      rw [storePrev_ctx h2eq x, storeNext_ctx h1eq x]
    · intro x
      show prio h2 x = prio s.nodes x
      rw [storePrev_prio h2eq x, storeNext_prio h1eq x]
  | cons a0 t =>
    have ha0t : item ≠ a0 ∧ item ∉ t := by
      constructor
      · intro he
        exact hfresh (by rw [he]; exact List.mem_cons_self a0 t)
      · intro hm
        exact hfresh (List.mem_cons_of_mem a0 hm)
    cases t with
    | nil =>
      have hsz1 : s.size = 1 := by
        rw [hsz]
        rfl
      have hhd : s.head = PVal.addr a0 := hhead
      have hlk : linkIs s.nodes a0 a0 := (List.chain'_cons.mp hchain).1
      obtain ⟨nda0, ha0, _⟩ := linkIs_prev hlk
      obtain ⟨h1, h1eq, h1item⟩ := storeNext_exists s.head hnd
      obtain ⟨h2, h2eq, h2item⟩ := storePrev_exists s.head h1item
      rw [hhd] at h1eq h2eq
      have h2a0 : h2 a0 = some nda0 := by
        rw [storePrev_apply_ne h2eq (Ne.symm ha0t.1), storeNext_apply_ne h1eq (Ne.symm ha0t.1)]
        exact ha0
      obtain ⟨h3, h3eq, h3a0⟩ := storeNext_exists (PVal.addr item) h2a0
      obtain ⟨h4, h4eq, h4a0⟩ := storePrev_exists (PVal.addr item) h3a0
      refine ⟨{ s with nodes := h4, size := s.size + 1 },
        ?_, ⟨?_, ?_, ?_, ?_⟩, ?_, ?_, rfl, rfl, rfl, rfl, rfl, rfl⟩
      · simp only [addOp, hsz1, hhd, h1eq, h2eq, h3eq, h4eq]
        simp
      · simp [hsz1]
      · exact hhd
      · simp only [List.nodup_cons, List.mem_singleton, List.nodup_nil, and_true,
          List.not_mem_nil, not_false_iff, List.cons_append, List.nil_append]
        exact fun he => ha0t.1 he.symm
      · have hlk1 : linkIs h4 a0 item := by
          constructor
          · exact storePrev_prevAt_self h4eq
          · rw [storePrev_nextAt h4eq item, storeNext_nextAt_ne h3eq ha0t.1,
              storePrev_nextAt h2eq item]
            exact storeNext_nextAt_self h1eq
        have hlk2 : linkIs h4 item a0 := by
          constructor
          · rw [storePrev_prevAt_ne h4eq ha0t.1, storeNext_prevAt h3eq item]
            exact storePrev_prevAt_self h2eq
          · rw [storePrev_nextAt h4eq a0]
            exact storeNext_nextAt_self h3eq
        simp only [List.cons_append, List.nil_append]
        exact List.chain'_cons.mpr ⟨hlk1, List.chain'_cons.mpr ⟨hlk2,
          List.chain'_singleton a0⟩⟩
      · intro x
        rw [storePrev_ctx h4eq x, storeNext_ctx h3eq x, storePrev_ctx h2eq x,
          storeNext_ctx h1eq x]
      · intro x
        show prio h4 x = prio s.nodes x
        rw [storePrev_prio h4eq x, storeNext_prio h3eq x, storePrev_prio h2eq x,
          storeNext_prio h1eq x]
    | cons b t2 =>
      have hsz2 : s.size = t2.length + 2 := by
        rw [hsz]
        simp
      have hhd : s.head = PVal.addr a0 := hhead
      have hc0 : ¬(s.size = 0) := by omega
      have hc1 : ¬(s.size = 1) := by omega
      have htne : b :: t2 ≠ [] := by simp
      have hsplit := List.chain'_append.mp hchain
      have hclA : List.Chain' (linkIs s.nodes) (a0 :: b :: t2) := hsplit.1
      have hw : linkIs s.nodes ((a0 :: b :: t2).getLast (by simp)) a0 := by
        refine hsplit.2.2 ((a0 :: b :: t2).getLast (by simp)) ?_ a0 ?_
        · rw [List.getLast?_eq_getLast_of_ne_nil (by simp)]
          exact rfl
        · exact rfl
      have hgl : (a0 :: b :: t2).getLast (by simp) = (b :: t2).getLast htne := by
        simp
      rw [hgl] at hw
      obtain ⟨hdn, ha0n, hnexta0⟩ := linkIs_next hw
      obtain ⟨ndw, hwn, _⟩ := linkIs_prev hw
      have hwa0 : (b :: t2).getLast htne ≠ a0 := by
        intro he
        have := List.getLast_mem htne
        rw [he] at this
        exact (List.nodup_cons.mp hnodup).1 this
      have hwitem : (b :: t2).getLast htne ≠ item := by
        intro he
        have := List.getLast_mem htne
        rw [he] at this
        exact ha0t.2 this
      obtain ⟨h1, h1eq, h1w⟩ := storePrev_exists (PVal.addr item) hwn
      have h1a0 : h1 a0 = some hdn := by
        rw [storePrev_apply_ne h1eq (Ne.symm hwa0)]
        exact ha0n
      have h1item : h1 item = some nd := by
        rw [storePrev_apply_ne h1eq (Ne.symm hwitem)]
        exact hnd
      obtain ⟨h2, h2eq, h2item⟩ :=
        storeNext_exists (PVal.addr ((b :: t2).getLast htne)) h1item
      obtain ⟨h3, h3eq, h3item⟩ := storePrev_exists (PVal.addr a0) h2item
      have h3a0 : h3 a0 = some hdn := by
        rw [storePrev_apply_ne h3eq (Ne.symm ha0t.1),
          storeNext_apply_ne h2eq (Ne.symm ha0t.1)]
        exact h1a0
      obtain ⟨h4, h4eq, h4a0⟩ := storeNext_exists (PVal.addr item) h3a0
      refine ⟨{ s with nodes := h4, size := s.size + 1 },
        ?_, ⟨?_, ?_, ?_, ?_⟩, ?_, ?_, rfl, rfl, rfl, rfl, rfl, rfl⟩
      · simp only [addOp, if_neg hc0, if_neg hc1, hhd, ha0n, hnexta0, h1eq, h1a0,
          h2eq, h3eq, h4eq]
      · show s.size + 1 = (a0 :: b :: t2 ++ [item]).length
        rw [hsz2]
        simp only [List.length_cons, List.length_append, List.length_singleton,
          List.length_nil]
      · exact hhd
      · rw [List.cons_append]
        rw [List.nodup_cons]
        constructor
        · simp only [List.mem_append, List.mem_singleton]
          rintro (hm | hm)
          · exact (List.nodup_cons.mp hnodup).1 hm
          · exact ha0t.1 hm.symm
        · rw [List.nodup_append]
          refine ⟨(List.nodup_cons.mp hnodup).2, List.nodup_singleton item, ?_⟩
          intro x hx
          simp only [List.mem_singleton]
          intro he
          rw [he] at hx
          exact ha0t.2 hx
      · -- the new cyclic chain ((a0 :: b :: t2) ++ [item, a0])
        show List.Chain' (linkIs h4) ((a0 :: b :: t2 ++ [item]) ++ [a0])
        have hgoal : (a0 :: b :: t2 ++ [item]) ++ [a0] =
            (a0 :: b :: t2) ++ [item, a0] := by
          simp
        have hpn4 : ∀ x, x ≠ a0 → prevAt h4 x = prevAt h3 x := fun x hx => by
          rw [storeNext_prevAt h4eq x]
        have hmono : List.Chain' (linkIs h4) (a0 :: b :: t2) := by
          refine chain'_linkIs_mono s.nodes h4 (a0 :: b :: t2) ?_ ?_ hclA
          · intro x hx
            have hxw : x ≠ (b :: t2).getLast htne := by
              intro he
              rw [he] at hx
              have hdl : (a0 :: b :: t2).getLast (by simp) ∉
                  (a0 :: b :: t2).dropLast :=
                nodup_getLast_not_dropLast hnodup (by simp)
              rw [hgl] at hdl
              exact hdl hx
            have hxitem : x ≠ item := by
              intro he
              rw [he] at hx
              have := List.dropLast_subset (a0 :: b :: t2) hx
              exact hfresh this
            rw [storeNext_prevAt h4eq x, storePrev_prevAt_ne h3eq hxitem,
              storeNext_prevAt h2eq x, storePrev_prevAt_ne h1eq hxw]
          · intro x hx
            have hxa0 : x ≠ a0 := by
              intro he
              rw [he] at hx
              exact (List.nodup_cons.mp hnodup).1 hx
            have hxitem : x ≠ item := by
              intro he
              rw [he] at hx
              exact ha0t.2 hx
            rw [storeNext_nextAt_ne h4eq hxa0, storePrev_nextAt h3eq x,
              storeNext_nextAt_ne h2eq hxitem, storePrev_nextAt h1eq x]
        have hlkwi : linkIs h4 ((b :: t2).getLast htne) item := by
          constructor
          · rw [storeNext_prevAt h4eq _, storePrev_prevAt_ne h3eq hwitem,
              storeNext_prevAt h2eq _]
            exact storePrev_prevAt_self h1eq
          · rw [storeNext_nextAt_ne h4eq ha0t.1, storePrev_nextAt h3eq item]
            exact storeNext_nextAt_self h2eq
        have hlkia0 : linkIs h4 item a0 := by
          constructor
          · rw [storeNext_prevAt h4eq item]
            exact storePrev_prevAt_self h3eq
          · exact storeNext_nextAt_self h4eq
        rw [hgoal]
        refine List.chain'_append.mpr ⟨hmono, ?_, ?_⟩
        · exact List.chain'_cons.mpr ⟨hlkia0, List.chain'_singleton a0⟩
        · intro x hx y hy
          rw [List.getLast?_eq_getLast_of_ne_nil (by simp)] at hx
          simp only [Option.mem_def, Option.some.injEq] at hx hy
          have hy' : y = item := by
            simp only [List.head?_cons, Option.some.injEq] at hy
            exact hy.symm
          rw [← hx, hy']
          rw [hgl]
          exact hlkwi
      · intro x
        rw [storeNext_ctx h4eq x, storePrev_ctx h3eq x, storeNext_ctx h2eq x,
          storePrev_ctx h1eq x]
      · intro x
        show prio h4 x = prio s.nodes x
        rw [storeNext_prio h4eq x, storePrev_prio h3eq x, storeNext_prio h2eq x,
          storePrev_prio h1eq x]

/-! ## Selection preserves the ring invariant -/

theorem storeNext_isSome {h h' : Heap} {a : Nat} {v : PVal}
    (hs : storeNext h a v = some h') (x : Nat) : (h' x).isSome = (h x).isSome := by
  unfold storeNext at hs
  cases ha : h a with
  | none => rw [ha] at hs; exact absurd hs (by simp)
  | some nd =>
    rw [ha] at hs
    simp only [Option.some.injEq] at hs
    subst hs
    by_cases hx : x = a
    · rw [hx]; simp [ha]
    · simp [hx]

theorem storePrev_isSome {h h' : Heap} {a : Nat} {v : PVal}
    (hs : storePrev h a v = some h') (x : Nat) : (h' x).isSome = (h x).isSome := by
  unfold storePrev at hs
  cases ha : h a with
  | none => rw [ha] at hs; exact absurd hs (by simp)
  | some nd =>
    rw [ha] at hs
    simp only [Option.some.injEq] at hs
    subst hs
    by_cases hx : x = a
    · rw [hx]; simp [ha]
    · simp [hx]

theorem nodup_head_not_tail {M : List Nat} {P : Nat} (hn : M.Nodup)
    (hh : M.head? = some P) : P ∉ M.tail := by
  cases M with
  | nil => exact absurd hh (by simp)
  | cons m M' =>
    simp only [List.head?_cons, Option.some.injEq] at hh
    rw [← hh]
    exact (List.nodup_cons.mp hn).1

/-- get_priority_thread() on a well-formed non-empty queue: the queue
representation list splits as pre ++ r :: post where r is the returned
record, every record enqueued before r (still ready) has strictly greater
priority, r's priority is minimal among all ready records, and the
resulting queue is well-formed on pre ++ post.  Heap priorities, context
fields and all non-ring state are unchanged. -/
theorem getOp_spec (fuel : Nat) (s : State) (l : List Nat)
    (hwf : QWF s l) (hne : l ≠ []) (hfuel : l.length ≤ fuel) :
    ∃ pre r post s',
      l = pre ++ r :: post ∧
      getOp fuel s = some (PVal.addr r, s') ∧
      (∀ x ∈ pre, prio s.nodes r < prio s.nodes x) ∧
      (∀ x ∈ l, prio s.nodes r ≤ prio s.nodes x) ∧
      QWF s' (pre ++ post) ∧
      (∀ x, (s'.nodes x).map Node.context = (s.nodes x).map Node.context) ∧
      (∀ x, prio s'.nodes x = prio s.nodes x) ∧
      s'.active = s.active ∧ s'.ctxs = s.ctxs ∧
      s'.freedNodes = s.freedNodes ∧ s'.freedCtxs = s.freedCtxs ∧
      s'.guardAlive = s.guardAlive ∧ s'.queueFreed = s.queueFreed := by
  obtain ⟨hsz, hhead, hnodup, hchain⟩ := hwf
  cases l with
  | nil => exact absurd rfl hne
  | cons a0 t =>
    have hhd : s.head = PVal.addr a0 := hhead
    cases t with
    | nil =>
      have hsz1 : s.size = 1 := hsz
      have hc0 : ¬(s.size = 0) := by omega
      refine ⟨[], a0, [], { s with head := PVal.null, size := 0 },
        rfl, ?_, ?_, ?_, ⟨rfl, trivial, List.nodup_nil, List.chain'_nil⟩,
        fun x => rfl, fun x => rfl, rfl, rfl, rfl, rfl, rfl, rfl⟩
      · simp only [getOp, hsz1, hhd]
        simp
      · intro x hx
        exact absurd hx (List.not_mem_nil x)
      · intro x hx
        rw [List.mem_singleton] at hx
        exact le_of_eq (by rw [hx])
    | cons b t2 =>
      have ha0t : a0 ∉ b :: t2 := (List.nodup_cons.mp hnodup).1
      have hszl : s.size = t2.length + 2 := by
        rw [hsz]
        simp
      have hc0 : ¬(s.size = 0) := by omega
      have hc1 : ¬(s.size = 1) := by omega
      obtain ⟨hdn, ha0n⟩ := ring_alloc ⟨hnodup, hchain⟩ a0 (List.mem_cons_self _ _)
      have hprioa0 : prio s.nodes a0 = hdn.priority := by
        unfold prio
        rw [ha0n]
      have hpchain := ring_prevChain ⟨hnodup, hchain⟩
      have hscan := scanLoop_spec s.nodes a0 (b :: t2) fuel a0 a0 hdn.priority
        (by simp only [List.length_cons] at hfuel ⊢; omega) hpchain ha0t
      obtain ⟨pre, r, post, heqlist, hfold, hstrict, hmin⟩ :=
        selFold_split s.nodes (b :: t2) a0 hdn.priority hprioa0
      rw [hfold] at hscan
      have hrmem : r ∈ a0 :: b :: t2 := by
        rw [heqlist]
        exact List.mem_append_right pre (List.mem_cons_self r post)
      obtain ⟨bn, hbn⟩ := ring_alloc ⟨hnodup, hchain⟩ r hrmem
      have hpriorr : prio s.nodes r = bn.priority := by
        unfold prio
        rw [hbn]
      cases pre with
      | nil =>
        -- the head itself is selected: the anchor moves to its prev neighbor
        simp only [List.nil_append, List.cons.injEq] at heqlist
        obtain ⟨hra0, hpost⟩ := heqlist
        subst hra0
        rw [ha0n] at hbn
        have hbneq : bn = hdn := (Option.some.inj hbn).symm
        subst hbneq
        subst hpost
        -- links of the selected head: prev is b, next is the last member
        have hlkab : linkIs s.nodes a0 b := (List.chain'_cons.mp hchain).1
        have hprev : bn.prev = PVal.addr b := by
          obtain ⟨nd1, hnd1, hp1⟩ := linkIs_prev hlkab
          rw [ha0n] at hnd1
          rw [Option.some.inj hnd1]
          exact hp1
        have htne : b :: t2 ≠ [] := by simp
        have hsplitc := List.chain'_append.mp hchain
        have hw : linkIs s.nodes ((b :: t2).getLast htne) a0 := by
          have hw0 := hsplitc.2.2 ((a0 :: b :: t2).getLast (by simp)) (by
            rw [List.getLast?_eq_getLast_of_ne_nil (by simp)]
            exact rfl) a0 (by exact rfl)
          have hgl : (a0 :: b :: t2).getLast (by simp) = (b :: t2).getLast htne := by
            simp
          rw [hgl] at hw0
          exact hw0
        have hnexta0 : bn.next = PVal.addr ((b :: t2).getLast htne) := by
          obtain ⟨nd1, hnd1, hp1⟩ := linkIs_next hw
          rw [ha0n] at hnd1
          rw [Option.some.inj hnd1]
          exact hp1
        obtain ⟨bnd, hbnd⟩ := ring_alloc ⟨hnodup, hchain⟩ b
          (List.mem_cons_of_mem a0 (List.mem_cons_self b t2))
        obtain ⟨h1, h1eq, h1b⟩ :=
          storeNext_exists (PVal.addr ((b :: t2).getLast htne)) hbnd
        have ha0b : a0 ≠ b := fun he => ha0t (by rw [he]; exact List.mem_cons_self b t2)
        have h1a0 : h1 a0 = some bn := by
          rw [storeNext_apply_ne h1eq ha0b]
          exact ha0n
        have hwalloc : ∃ ndw1, h1 ((b :: t2).getLast htne) = some ndw1 := by
          obtain ⟨ndw, hndw⟩ := ring_alloc ⟨hnodup, hchain⟩ ((b :: t2).getLast htne)
            (List.mem_cons_of_mem a0 (List.getLast_mem htne))
          have := storeNext_isSome h1eq ((b :: t2).getLast htne)
          rw [hndw] at this
          simp only [Option.isSome_some] at this
          exact Option.isSome_iff_exists.mp this
        obtain ⟨ndw1, hndw1⟩ := hwalloc
        obtain ⟨h2, h2eq, h2w⟩ := storePrev_exists (PVal.addr b) hndw1
        refine ⟨[], a0, b :: t2,
          { s with head := PVal.addr b, nodes := h2, size := s.size - 1 },
          rfl, ?_, ?_, hmin, ⟨?_, rfl, ?_, ?_⟩, ?_, ?_, rfl, rfl, rfl, rfl, rfl, rfl⟩
        · simp only [getOp, if_neg hc0, if_neg hc1, hhd, ha0n, hscan, hprev,
            hnexta0, h1eq, h1a0, h2eq]
          simp [h1eq, h1a0, hnexta0, hprev, h2eq]
        · intro x hx
          exact absurd hx (List.not_mem_nil x)
        · rw [hszl]
          simp
        · exact (List.nodup_cons.mp hnodup).2
        · -- new cyclic chain ((b :: t2) ++ [b])
          have hclt : List.Chain' (linkIs s.nodes) (b :: t2) := by
            have := (List.chain'_cons.mp hchain).2
            exact (List.chain'_append.mp this).1
          have hnodt : (b :: t2).Nodup := (List.nodup_cons.mp hnodup).2
          have hmono : List.Chain' (linkIs h2) (b :: t2) := by
            refine chain'_linkIs_mono s.nodes h2 (b :: t2) ?_ ?_ hclt
            · intro x hx
              have hxw : x ≠ (b :: t2).getLast htne := by
                intro he
                rw [he] at hx
                exact nodup_getLast_not_dropLast hnodt htne hx
              rw [storePrev_prevAt_ne h2eq hxw, storeNext_prevAt h1eq x]
            · intro x hx
              have hxb : x ≠ b := by
                intro he
                rw [he] at hx
                exact (List.nodup_cons.mp hnodt).1 hx
              rw [storePrev_nextAt h2eq x, storeNext_nextAt_ne h1eq hxb]
          have hjunction : linkIs h2 ((b :: t2).getLast htne) b := by
            constructor
            · exact storePrev_prevAt_self h2eq
            · rw [storePrev_nextAt h2eq b]
              exact storeNext_nextAt_self h1eq
          show List.Chain' (linkIs h2) ((b :: t2) ++ [b])
          refine List.chain'_append.mpr ⟨hmono, List.chain'_singleton b, ?_⟩
          intro x hx y hy
          rw [List.getLast?_eq_getLast_of_ne_nil htne] at hx
          simp only [List.head?_cons, Option.mem_def, Option.some.injEq] at hx hy
          rw [← hx, ← hy]
          exact hjunction
        · intro x
          rw [storePrev_ctx h2eq x, storeNext_ctx h1eq x]
        · intro x
          show prio h2 x = prio s.nodes x
          rw [storePrev_prio h2eq x, storeNext_prio h1eq x]
      | cons q pre' =>
        -- a non-anchor record is selected: the anchor stays put
        simp only [List.cons_append, List.cons.injEq] at heqlist
        obtain ⟨hqa0, ht⟩ := heqlist
        subst hqa0
        have hrt : r ∈ b :: t2 := by
          rw [ht]
          exact List.mem_append_right pre' (List.mem_cons_self r post)
        have hra0 : r ≠ a0 := by
          intro he
          rw [he] at hrt
          exact ha0t hrt
        have hlfull : a0 :: b :: t2 = (a0 :: pre') ++ r :: post := by
          rw [List.cons_append, ht]
        -- decompose the cyclic chain around r
        have hchain2 : List.Chain' (linkIs s.nodes)
            ((a0 :: pre') ++ (r :: (post ++ [a0]))) := by
          have := hchain
          rw [hlfull] at this
          rw [List.append_assoc] at this
          exact this
        have hcpre : List.Chain' (linkIs s.nodes) (a0 :: pre') :=
          (List.chain'_append.mp hchain2).1
        have hcrest : List.Chain' (linkIs s.nodes) (r :: (post ++ [a0])) :=
          (List.chain'_append.mp hchain2).2.1
        have hjun := (List.chain'_append.mp hchain2).2.2
        have hNr : linkIs s.nodes ((a0 :: pre').getLast (by simp)) r := by
          refine hjun ((a0 :: pre').getLast (by simp)) ?_ r ?_
          · rw [List.getLast?_eq_getLast_of_ne_nil (by simp)]
            exact rfl
          · exact rfl
        obtain ⟨P, hPhead, hrP⟩ := chain'_cons_head (by simp) hcrest
        have hbnprev : bn.prev = PVal.addr P := by
          obtain ⟨nd1, hnd1, hp1⟩ := linkIs_prev hrP
          rw [hbn] at hnd1
          rw [Option.some.inj hnd1]
          exact hp1
        have hbnnext : bn.next = PVal.addr ((a0 :: pre').getLast (by simp)) := by
          obtain ⟨nd1, hnd1, hp1⟩ := linkIs_next hNr
          rw [hbn] at hnd1
          rw [Option.some.inj hnd1]
          exact hp1
        have hPmem : P ∈ post ++ [a0] := by
          have hthis : (post ++ [a0]).head? = some P := hPhead
          cases post with
          | nil =>
            simp only [List.nil_append, List.head?_cons, Option.some.injEq] at hthis
            rw [List.nil_append, ← hthis]
            exact List.mem_singleton.mpr rfl
          | cons p0 ps =>
            simp only [List.cons_append, List.head?_cons, Option.some.injEq] at hthis
            rw [List.cons_append, ← hthis]
            exact List.mem_cons_self _ _
        have hPl : P ∈ a0 :: b :: t2 := by
          rcases List.mem_append.mp hPmem with hm | hm
          · rw [hlfull]
            exact List.mem_append_right _ (List.mem_cons_of_mem r hm)
          · rw [List.mem_singleton] at hm
            rw [hm]
            exact List.mem_cons_self _ _
        have hNmem : (a0 :: pre').getLast (by simp) ∈ a0 :: pre' :=
          List.getLast_mem (by simp)
        have hNl : (a0 :: pre').getLast (by simp) ∈ a0 :: b :: t2 := by
          rw [hlfull]
          exact List.mem_append_left _ hNmem
        have hnodfull : ((a0 :: pre') ++ r :: post).Nodup := by
          rw [← hlfull]
          exact hnodup
        have hrpre : r ∉ a0 :: pre' := by
          intro hm
          have := List.disjoint_of_nodup_append hnodfull
          exact this hm (List.mem_cons_self r post)
        have hrP2 : P ≠ r := by
          rcases List.mem_append.mp hPmem with hm | hm
          · intro he
            have hnd2 := (List.nodup_append.mp hnodfull).2.1
            rw [he] at hm
            exact (List.nodup_cons.mp hnd2).1 hm
          · rw [List.mem_singleton] at hm
            intro he
            rw [hm] at he
            exact hra0 he.symm
        obtain ⟨Pnd, hPnd⟩ := ring_alloc ⟨hnodup, hchain⟩ P hPl
        obtain ⟨h1, h1eq, h1P⟩ :=
          storeNext_exists (PVal.addr ((a0 :: pre').getLast (by simp))) hPnd
        have h1r : h1 r = some bn := by
          rw [storeNext_apply_ne h1eq hrP2.symm]
          exact hbn
        have hNalloc : ∃ ndN, h1 ((a0 :: pre').getLast (by simp)) = some ndN := by
          obtain ⟨ndN0, hndN0⟩ := ring_alloc ⟨hnodup, hchain⟩ _ hNl
          have := storeNext_isSome h1eq ((a0 :: pre').getLast (by simp))
          rw [hndN0] at this
          simp only [Option.isSome_some] at this
          exact Option.isSome_iff_exists.mp this
        obtain ⟨ndN, hndN⟩ := hNalloc
        obtain ⟨h2, h2eq, h2N⟩ := storePrev_exists (PVal.addr P) hndN
        have hcond : ¬(PVal.addr r = s.head) := by
          rw [hhd]
          simp only [PVal.addr.injEq]
          exact hra0
        refine ⟨a0 :: pre', r, post,
          { s with nodes := h2, size := s.size - 1 },
          hlfull, ?_, hstrict, hmin, ⟨?_, ?_, ?_, ?_⟩, ?_, ?_,
          rfl, rfl, rfl, rfl, rfl, rfl⟩
        · have hcond2 : ¬(PVal.addr r = PVal.addr a0) := by
            simp only [PVal.addr.injEq]
            exact hra0
          simp only [getOp, if_neg hc0, if_neg hc1, hhd, ha0n, hscan, hbn,
            if_neg hcond2, hbnprev, hbnnext, h1eq, h1r, h2eq]
        · show s.size - 1 = ((a0 :: pre') ++ post).length
          have hlen := congrArg List.length hlfull
          simp only [List.length_cons, List.length_append] at hlen ⊢
          omega
        · show headOK s.head ((a0 :: pre') ++ post)
          rw [List.cons_append]
          exact hhd
        · have hsub : List.Sublist ((a0 :: pre') ++ post) ((a0 :: pre') ++ r :: post) := by
            refine List.Sublist.append (List.Sublist.refl _) ?_
            exact List.sublist_cons_self r post
          exact List.Nodup.sublist hsub hnodfull
        · -- new cyclic chain ((a0 :: pre') ++ (post ++ [a0]))
          have hcpost : List.Chain' (linkIs s.nodes) (post ++ [a0]) :=
            (List.chain'_cons'.mp hcrest).2
          have hnodpa : (post ++ [a0]).Nodup := by
            have h1n := (List.nodup_append.mp hnodfull).2.1
            have h2n := (List.nodup_cons.mp h1n).2
            have hdisj := List.disjoint_of_nodup_append hnodfull
            rw [List.nodup_append]
            refine ⟨h2n, List.nodup_singleton a0, ?_⟩
            intro x hx
            rw [List.mem_singleton]
            intro he
            rw [he] at hx
            exact hdisj (List.mem_cons_self a0 pre') (List.mem_cons_of_mem r hx)
          have hdisjpre := List.disjoint_of_nodup_append hnodfull
          have hmono1 : List.Chain' (linkIs h2) (a0 :: pre') := by
            refine chain'_linkIs_mono s.nodes h2 (a0 :: pre') ?_ ?_ hcpre
            · intro x hx
              have hxN : x ≠ (a0 :: pre').getLast (by simp) := by
                intro he
                rw [he] at hx
                exact nodup_getLast_not_dropLast
                  (List.Nodup.of_append_left hnodfull) (by simp) hx
              rw [storePrev_prevAt_ne h2eq hxN, storeNext_prevAt h1eq x]
            · intro x hx
              have hxP : x ≠ P := by
                intro he
                rw [he] at hx
                rcases List.mem_append.mp hPmem with hm | hm
                · exact hdisjpre (List.mem_cons_of_mem a0 hx)
                    (List.mem_cons_of_mem r hm)
                · rw [List.mem_singleton] at hm
                  rw [hm] at hx
                  exact (List.nodup_cons.mp
                    (List.Nodup.of_append_left hnodfull)).1 hx
              rw [storePrev_nextAt h2eq x, storeNext_nextAt_ne h1eq hxP]
          have hmono2 : List.Chain' (linkIs h2) (post ++ [a0]) := by
            refine chain'_linkIs_mono s.nodes h2 (post ++ [a0]) ?_ ?_ hcpost
            · intro x hx
              have hxN : x ≠ (a0 :: pre').getLast (by simp) := by
                intro he
                have hxp : x ∈ post := by
                  have hdl : (post ++ [a0]).dropLast = post := by
                    rw [List.dropLast_append_of_ne_nil]
                    · simp
                    · simp
                  rw [hdl] at hx
                  exact hx
                rw [he] at hxp
                exact hdisjpre hNmem (List.mem_cons_of_mem r hxp)
              rw [storePrev_prevAt_ne h2eq hxN, storeNext_prevAt h1eq x]
            · intro x hx
              have hxP : x ≠ P := by
                intro he
                rw [he] at hx
                exact nodup_head_not_tail hnodpa hPhead hx
              rw [storePrev_nextAt h2eq x, storeNext_nextAt_ne h1eq hxP]
          have hjunction : linkIs h2 ((a0 :: pre').getLast (by simp)) P := by
            constructor
            · exact storePrev_prevAt_self h2eq
            · rw [storePrev_nextAt h2eq P]
              exact storeNext_nextAt_self h1eq
          show List.Chain' (linkIs h2) (((a0 :: pre') ++ post) ++ [a0])
          rw [List.append_assoc]
          refine List.chain'_append.mpr ⟨hmono1, hmono2, ?_⟩
          intro x hx y hy
          rw [List.getLast?_eq_getLast_of_ne_nil (by simp)] at hx
          simp only [Option.mem_def, Option.some.injEq] at hx hy
          rw [← hx]
          have hy' : y = P := by
            rw [hPhead] at hy
            exact (Option.some.inj hy).symm
          rw [hy']
          exact hjunction
        · intro x
          rw [storePrev_ctx h2eq x, storeNext_ctx h1eq x]
        · intro x
          show prio h2 x = prio s.nodes x
          rw [storePrev_prio h2eq x, storeNext_prio h1eq x]

/-! ## Frame and congruence lemmas for composite operations -/

theorem ringRep_congr_outside {h h' : Heap} {l : List Nat}
    (hagree : ∀ x ∈ l, h' x = h x) (hr : RingRep h l) : RingRep h' l := by
  refine ⟨hr.1, ?_⟩
  have hsub : ∀ x ∈ l ++ l.take 1, x ∈ l := by
    intro x hx
    rcases List.mem_append.mp hx with hm | hm
    · exact hm
    · exact List.take_subset 1 l hm
  refine chain'_linkIs_mono h h' (l ++ l.take 1) ?_ ?_ hr.2
  · intro x hx
    have := hsub x (List.dropLast_subset _ hx)
    unfold prevAt
    rw [hagree x this]
  · intro x hx
    have := hsub x (List.tail_subset _ hx)
    unfold nextAt
    rw [hagree x this]

theorem QWF_congr_outside {s : State} {h' : Heap} {l : List Nat}
    (hagree : ∀ x ∈ l, h' x = s.nodes x) (hwf : QWF s l) :
    QWF { s with nodes := h' } l :=
  ⟨hwf.1, hwf.2.1, ringRep_congr_outside hagree hwf.2.2⟩

theorem storePriority_prio_self {h h' : Heap} {a : Nat} {p : Int}
    (hs : storePriority h a p = some h') : prio h' a = p := by
  unfold storePriority at hs
  cases ha : h a with
  | none => rw [ha] at hs; exact absurd hs (by simp)
  | some nd =>
    rw [ha] at hs
    simp only [Option.some.injEq] at hs
    subst hs
    unfold prio
    simp

theorem storePriority_prio_ne {h h' : Heap} {a : Nat} {p : Int}
    (hs : storePriority h a p = some h') {x : Nat} (hx : x ≠ a) :
    prio h' x = prio h x := by
  unfold prio
  rw [storePriority_apply_ne hs hx]

/-- Validity of a thread record for a context transfer: the record is
allocated, its context pointer is an address, and that context is
allocated, which is exactly what swapcontext/setcontext dereference. -/
def CtxOK (s : State) (a : Nat) : Prop :=
  (ctxDeref s.nodes s.ctxs (PVal.addr a)).isSome = true

instance (s : State) (a : Nat) : Decidable (CtxOK s a) :=
  inferInstanceAs (Decidable ((ctxDeref s.nodes s.ctxs (PVal.addr a)).isSome = true))

theorem ctxOK_elim {s : State} {a : Nat} (h : CtxOK s a) :
    ∃ nd, s.nodes a = some nd := by
  simp only [CtxOK, ctxDeref] at h
  cases hn : s.nodes a with
  | none => rw [hn] at h; simp at h
  | some nd => exact ⟨nd, rfl⟩

/-- ctxDeref only looks at the context field of the record, so it is
invariant under heap changes that preserve all context fields. -/
theorem ctxDeref_congr {h h' : Heap} (cs : Nat → Option UContext)
    (hctx : ∀ x, (h' x).map Node.context = (h x).map Node.context) (a : Nat) :
    ctxDeref h' cs (PVal.addr a) = ctxDeref h cs (PVal.addr a) := by
  simp only [ctxDeref]
  have hm := hctx a
  cases hh : h a with
  | none =>
    have hm' : h' a = none := by
      rw [hh] at hm
      simp only [Option.map_none'] at hm
      exact Option.map_eq_none'.mp hm
    simp only [hm']
  | some nd =>
    rw [hh] at hm
    simp only [Option.map_some'] at hm
    obtain ⟨nd', hnd', hc⟩ := Option.map_eq_some'.mp hm
    simp only [hnd', hc]

/-! ## The yield operation -/

/-- uthread_yield() on a well-formed non-empty queue with an established
active record outside the ring: the caller's priority is updated first,
then the highest-priority ready record r is selected and removed, then the
caller is reinserted (with its new priority) as the newest record, r
becomes active and the contexts are swapped.  The selection draws only
from the ring, which does not contain the caller, so r is never the
caller. -/
theorem yieldOp_spec (fuel : Nat) (s : State) (l : List Nat) (act : Nat) (p : Int)
    (hwf : QWF s l) (hne : l ≠ []) (hact : s.active = PVal.addr act)
    (hactl : act ∉ l) (hactx : CtxOK s act)
    (hallctx : ∀ x ∈ l, CtxOK s x) (hfuel : l.length ≤ fuel) :
    ∃ pre r post s',
      l = pre ++ r :: post ∧
      yieldOp fuel s p = some (0, s') ∧
      r ≠ act ∧
      s'.active = PVal.addr r ∧
      (∀ x ∈ pre, prio s.nodes r < prio s.nodes x) ∧
      (∀ x ∈ l, prio s.nodes r ≤ prio s.nodes x) ∧
      prio s'.nodes act = p ∧
      QWF s' ((pre ++ post) ++ [act]) ∧
      s'.freedNodes = s.freedNodes ∧ s'.freedCtxs = s.freedCtxs ∧
      s'.guardAlive = s.guardAlive ∧ s'.queueFreed = s.queueFreed := by
  have hsz0 : ¬(s.size = 0) := by
    rw [hwf.1]
    simp only [ne_eq, List.length_eq_zero]
    intro he
    exact hne he
  obtain ⟨nda, hnda⟩ := ctxOK_elim hactx
  obtain ⟨h1, h1eq, h1act⟩ := storePriority_exists p hnda
  have hwf1 : QWF { s with nodes := h1 } l := by
    refine QWF_congr_outside ?_ hwf
    intro x hx
    exact storePriority_apply_ne h1eq (fun he => hactl (he ▸ hx))
  obtain ⟨pre, r, post, s2, heq, hget, hstrict1, hmin1, hwf2, hctx2, hprio2,
    hactive2, hctxs2, hfn2, hfc2, hg2, hq2⟩ :=
    getOp_spec fuel { s with nodes := h1 } l hwf1 hne hfuel
  have hpriofix : ∀ x ∈ l, prio h1 x = prio s.nodes x := by
    intro x hx
    exact storePriority_prio_ne h1eq (fun he => hactl (he ▸ hx))
  have hrl : r ∈ l := by
    rw [heq]
    exact List.mem_append_right pre (List.mem_cons_self r post)
  have hract : r ≠ act := fun he => hactl (he ▸ hrl)
  have hactsub : act ∉ pre ++ post := by
    intro hm
    rcases List.mem_append.mp hm with hm | hm
    · exact hactl (by rw [heq]; exact List.mem_append_left _ hm)
    · exact hactl (by
        rw [heq]
        exact List.mem_append_right _ (List.mem_cons_of_mem r hm))
  have h2act : ∃ nd2, s2.nodes act = some nd2 := by
    have hmm := hctx2 act
    dsimp only at hmm
    rw [h1act] at hmm
    simp only [Option.map_some'] at hmm
    obtain ⟨nd2, hnd2, _⟩ := Option.map_eq_some'.mp hmm
    exact ⟨nd2, hnd2⟩
  obtain ⟨nd2, hnd2⟩ := h2act
  obtain ⟨s3, hadd, hwf3, hctx3, hprio3, hactive3, hctxs3, hfn3, hfc3, hg3, hq3⟩ :=
    addOp_spec s2 (pre ++ post) act nd2 hwf2 hactsub hnd2
  have hctxchain : ∀ x, (s3.nodes x).map Node.context = (s.nodes x).map Node.context := by
    intro x
    rw [hctx3 x]
    have h2c := hctx2 x
    dsimp only at h2c
    rw [h2c]
    exact storePriority_ctx h1eq x
  have hderef : ∀ a : Nat, ctxDeref s3.nodes s.ctxs (PVal.addr a) =
      ctxDeref s.nodes s.ctxs (PVal.addr a) :=
    fun a => ctxDeref_congr s.ctxs hctxchain a
  have hctxsfix : s3.ctxs = s.ctxs := hctxs3.trans (hctxs2.trans rfl)
  have hsome_a : (ctxDeref s3.nodes s3.ctxs (PVal.addr act)).isSome = true := by
    rw [hctxsfix, hderef act]
    exact hactx
  have hsome_r : (ctxDeref s3.nodes s3.ctxs (PVal.addr r)).isSome = true := by
    rw [hctxsfix, hderef r]
    exact hallctx r hrl
  obtain ⟨ctxa, hctxa⟩ := Option.isSome_iff_exists.mp hsome_a
  obtain ⟨ctxr, hctxr⟩ := Option.isSome_iff_exists.mp hsome_r
  refine ⟨pre, r, post, { s3 with active := PVal.addr r }, heq, ?_, hract, rfl,
    ?_, ?_, ?_, ?_, ?_, ?_, ?_, ?_⟩
  · rw [hact] at hget
    simp only [yieldOp, if_neg hsz0, hact, h1eq, hget, hadd, hctxa, hctxr]
  · intro x hx
    have hxl : x ∈ l := by
      rw [heq]
      exact List.mem_append_left _ hx
    rw [← hpriofix x hxl, ← hpriofix r hrl]
    exact hstrict1 x hx
  · intro x hx
    rw [← hpriofix x hx, ← hpriofix r hrl]
    exact hmin1 x hx
  · show prio s3.nodes act = p
    rw [hprio3 act, hprio2 act]
    exact storePriority_prio_self h1eq
  · exact hwf3
  · exact hfn3.trans (hfn2.trans rfl)
  · exact hfc3.trans (hfc2.trans rfl)
  · exact hg3.trans (hg2.trans rfl)
  · exact hq3.trans (hq2.trans rfl)

/-! ## The exit operation -/

/-- uthread_exit() with at least one ready record: the highest-priority
ready record r is selected and removed, the exiting active record's
storage is freed — but not its context allocation, which the C code never
frees — r becomes active, and control transfers into r's context, never
returning. -/
theorem exitOp_spec (fuel : Nat) (s : State) (l : List Nat) (act : Nat)
    (hwf : QWF s l) (hne : l ≠ []) (hact : s.active = PVal.addr act)
    (hallctx : ∀ x ∈ l, CtxOK s x) (hfuel : l.length ≤ fuel) :
    ∃ pre r post s',
      l = pre ++ r :: post ∧
      exitOp fuel s = some (ExitRes.switched r s') ∧
      (∀ x ∈ pre, prio s.nodes r < prio s.nodes x) ∧
      (∀ x ∈ l, prio s.nodes r ≤ prio s.nodes x) ∧
      s'.active = PVal.addr r ∧
      s'.freedNodes = s.freedNodes ++ [act] ∧
      s'.freedCtxs = s.freedCtxs ∧
      s'.ctxs = s.ctxs ∧
      QWF s' (pre ++ post) ∧
      s'.guardAlive = s.guardAlive ∧ s'.queueFreed = s.queueFreed := by
  have hsz0 : ¬(s.size = 0) := by
    rw [hwf.1]
    simp only [ne_eq, List.length_eq_zero]
    intro he
    exact hne he
  obtain ⟨pre, r, post, s2, heq, hget, hstrict, hmin, hwf2, hctx2, hprio2,
    hactive2, hctxs2, hfn2, hfc2, hg2, hq2⟩ := getOp_spec fuel s l hwf hne hfuel
  have hrl : r ∈ l := by
    rw [heq]
    exact List.mem_append_right pre (List.mem_cons_self r post)
  have hs2act : s2.active = PVal.addr act := by
    rw [hactive2, hact]
  have hderef : ctxDeref s2.nodes s2.ctxs (PVal.addr r) =
      ctxDeref s.nodes s.ctxs (PVal.addr r) := by
    rw [hctxs2]
    exact ctxDeref_congr s.ctxs hctx2 r
  obtain ⟨ctxr, hctxr⟩ := Option.isSome_iff_exists.mp (show
    (ctxDeref s2.nodes s2.ctxs (PVal.addr r)).isSome = true by
    rw [hderef]
    exact hallctx r hrl)
  refine ⟨pre, r, post,
    { s2 with freedNodes := s2.freedNodes ++ [act], active := PVal.addr r },
    heq, ?_, hstrict, hmin, rfl, ?_, ?_, ?_, ?_, ?_, ?_⟩
  · simp only [exitOp, if_neg hsz0, hget, hs2act, freePtr, hctxr]
  · show s2.freedNodes ++ [act] = s.freedNodes ++ [act]
    rw [hfn2]
  · exact hfc2
  · exact hctxs2
  · exact QWF_congr_outside (fun x _ => rfl) hwf2
  · exact hg2
  · exact hq2

/-- uthread_exit() with an empty registry whose head is NULL and whose
active record is established: cleanup_queue frees no ready records (there
are none), frees the active record's storage and the queue structure, the
semaphore is destroyed, and the process terminates with exit status 0.
The active record's context allocation is not freed. -/
theorem exit_empty_spec (fuel : Nat) (s : State) (act : Nat)
    (hsz : s.size = 0) (hhd : s.head = PVal.null) (hact : s.active = PVal.addr act)
    (hfuel : 1 ≤ fuel) :
    ∃ s', exitOp fuel s = some (ExitRes.terminated 0 s') ∧
      s'.freedNodes = s.freedNodes ++ [act] ∧
      s'.freedCtxs = s.freedCtxs ∧ s'.ctxs = s.ctxs ∧ s'.nodes = s.nodes ∧
      s'.queueFreed = true ∧ s'.guardAlive = false := by
  obtain ⟨f, rfl⟩ : ∃ f, fuel = f + 1 := ⟨fuel - 1, by omega⟩
  refine ⟨{ s with
              freedNodes := s.freedNodes ++ [] ++ [act],
              queueFreed := true,
              guardAlive := false },
    ?_, by simp, rfl, rfl, rfl, rfl, rfl⟩
  simp only [exitOp, hsz, if_pos, hhd, cleanupLoop, hact, freePtr]

/-! ## Termination behavior of the cleanup traversal -/

/-- On any well-formed non-empty ring, the cleanup traversal never
completes, whatever the fuel: every visited record's next pointer is the
address of another ring member, so the NULL exit test never succeeds. -/
theorem cleanupLoop_nonterm {h : Heap} {a0 : Nat} {t : List Nat}
    (hr : RingRep h (a0 :: t)) :
    ∀ (fuel : Nat) (c : Nat) (acc : List Nat), c ∈ a0 :: t →
      cleanupLoop h fuel (PVal.addr c) acc = none := by
  intro fuel
  induction fuel with
  | zero =>
    intro c acc hc
    rfl
  | succ f ih =>
    intro c acc hc
    obtain ⟨x, hx, hnext⟩ := ring_next_mem hr c hc
    obtain ⟨nd, hnd⟩ := ring_alloc hr c hc
    have hndnext : nd.next = PVal.addr x := by
      unfold nextAt at hnext
      rw [hnd] at hnext
      simp only [Option.map_some', Option.some.injEq] at hnext
      exact hnext
    simp only [cleanupLoop, hnd, hndnext]
    exact ih x (acc ++ [c]) hx

/-- With a NULL cursor the cleanup traversal terminates at once. -/
theorem cleanupLoop_null (h : Heap) (fuel : Nat) (acc : List Nat) :
    cleanupLoop h (fuel + 1) PVal.null acc = some acc := rfl

/-! ## The create operation -/

/-- uthread_create() per allocation-oracle outcome: a failed record malloc
returns -1 with the state untouched; a failed context malloc returns -1
leaking the record but leaving the registry unchanged; when both succeed
the thread is enqueued and 0 is returned — even when the stack allocation
failed, in which case the enqueued thread's context carries a NULL stack
pointer (the C code never checks the stack malloc). -/
theorem createOp_spec (s : State) (l : List Nat) (f : Nat) (p : Int) (o3 : Bool)
    (hwf : QWF s l) (halloc : ∀ x ∈ l, x < s.nodeAlloc) :
    (∀ o2, createOp s f p false o2 o3 = some (-1, s)) ∧
    (∃ s1, createOp s f p true false o3 = some (-1, s1) ∧
      s1.head = s.head ∧ s1.size = s.size ∧ s1.active = s.active ∧
      s1.freedNodes = s.freedNodes ∧ QWF s1 l) ∧
    (∃ s', createOp s f p true true o3 = some (0, s') ∧
      QWF s' (l ++ [s.nodeAlloc]) ∧
      (s'.nodes s.nodeAlloc).map Node.priority = some p ∧
      s'.active = s.active ∧
      (s'.ctxs s.ctxAlloc).map UContext.stackSp =
        some (if o3 then PVal.addr s.stackAlloc else PVal.null)) := by
  have hfreshne : ∀ x ∈ l, x ≠ s.nodeAlloc := by
    intro x hx he
    have := halloc x hx
    omega
  have hfresh : s.nodeAlloc ∉ l := fun hm => hfreshne s.nodeAlloc hm rfl
  refine ⟨fun o2 => rfl, ?_, ?_⟩
  · refine ⟨_, rfl, rfl, rfl, rfl, rfl, ?_⟩
    refine QWF_congr_outside ?_ hwf
    intro x hx
    simp only [if_neg (hfreshne x hx)]
  · set a := s.nodeAlloc with ha
    set c := s.ctxAlloc with hc
    set nd2 : Node := { priority := p
                        funcId := f
                        context := PVal.addr c
                        next := PVal.undef
                        prev := PVal.undef } with hnd2
    set sp := if o3 then PVal.addr s.stackAlloc else PVal.null with hsp
    set s2 : State := { s with
      ctxs := fun x => if x = c then
          some { stackSp := sp, stackSize := 16384, funcId := f }
        else s.ctxs x
      ctxAlloc := c + 1
      stackAlloc := if o3 then s.stackAlloc + 1 else s.stackAlloc
      nodeAlloc := a + 1
      nodes := fun x => if x = a then some nd2
        else (fun y => if y = a then
            some { priority := p, funcId := f, context := PVal.undef,
                   next := PVal.undef, prev := PVal.undef }
          else s.nodes y) x } with hs2
    have hwf2 : QWF s2 l := by
      have hq : QWF { s with nodes := s2.nodes } l := by
        refine QWF_congr_outside ?_ hwf
        intro x hx
        simp only [hs2, if_neg (hfreshne x hx)]
      exact ⟨hq.1, hq.2.1, hq.2.2⟩
    have hnd2a : s2.nodes a = some nd2 := by
      simp [hs2]
    obtain ⟨s3, hadd, hwf3, hctx3, hprio3, hactive3, hctxs3, hfn3, hfc3, hg3, hq3⟩ :=
      addOp_spec s2 l a nd2 hwf2 hfresh hnd2a
    have halloc3 : ∃ nd3, s3.nodes a = some nd3 := by
      have hm := hctx3 a
      rw [hnd2a] at hm
      simp only [Option.map_some'] at hm
      obtain ⟨nd3, hnd3, _⟩ := Option.map_eq_some'.mp hm
      exact ⟨nd3, hnd3⟩
    obtain ⟨nd3, hnd3⟩ := halloc3
    refine ⟨s3, ?_, hwf3, ?_, hactive3, ?_⟩
    · simp only [createOp]
      simp only [hs2, hnd2, hsp, ← ha, ← hc] at hadd
      simp [hadd]
    · rw [hnd3]
      simp only [Option.map_some', Option.some.injEq]
      have hp3 := hprio3 a
      unfold prio at hp3
      rw [hnd3, hnd2a] at hp3
      have hp3' : nd3.priority = nd2.priority := hp3
      exact hp3'
    · rw [hctxs3]
      simp [hs2, hsp]

/-! ## Concrete states for witnesses and counterexamples -/

/-- Extract the post-state of a uthread_create or uthread_yield result,
for building concrete call traces. -/
def stepState (r : Option (Int × State)) : State :=
  match r with
  | some (_, s) => s
  | none => initState

/-- A concrete established state: record 0 is active (outside the ring),
records 1 (priority 7) and 2 (priority 3) form the ring, all with valid
contexts. -/
def csA : State :=
  { nodes := fun a =>
      if a = 0 then
        some { priority := 9, funcId := 0, context := PVal.addr 0,
               next := PVal.undef, prev := PVal.undef }
      else if a = 1 then
        some { priority := 7, funcId := 1, context := PVal.addr 1,
               next := PVal.addr 2, prev := PVal.addr 2 }
      else if a = 2 then
        some { priority := 3, funcId := 2, context := PVal.addr 2,
               next := PVal.addr 1, prev := PVal.addr 1 }
      else none
    ctxs := fun c =>
      if c ≤ 2 then some { stackSp := PVal.addr c, stackSize := 16384, funcId := c }
      else none
    nodeAlloc := 3
    ctxAlloc := 3
    stackAlloc := 3
    head := PVal.addr 1
    size := 2
    active := PVal.addr 0
    freedNodes := []
    freedCtxs := []
    queueFreed := false
    guardAlive := true }

/-- A concrete established state with equal ring priorities: records 1 and
2 both have priority 5; record 1 was enqueued first (it is the head). -/
def csTie : State :=
  { nodes := fun a =>
      if a = 0 then
        some { priority := 9, funcId := 0, context := PVal.addr 0,
               next := PVal.undef, prev := PVal.undef }
      else if a = 1 then
        some { priority := 5, funcId := 1, context := PVal.addr 1,
               next := PVal.addr 2, prev := PVal.addr 2 }
      else if a = 2 then
        some { priority := 5, funcId := 2, context := PVal.addr 2,
               next := PVal.addr 1, prev := PVal.addr 1 }
      else none
    ctxs := fun c =>
      if c ≤ 2 then some { stackSp := PVal.addr c, stackSize := 16384, funcId := c }
      else none
    nodeAlloc := 3
    ctxAlloc := 3
    stackAlloc := 3
    head := PVal.addr 1
    size := 2
    active := PVal.addr 0
    freedNodes := []
    freedCtxs := []
    queueFreed := false
    guardAlive := true }

/-- A concrete established state with a single ready record: record 0 is
active (priority 9), record 1 (priority 5) is the only ring member. -/
def csAct : State :=
  { nodes := fun a =>
      if a = 0 then
        some { priority := 9, funcId := 0, context := PVal.addr 0,
               next := PVal.undef, prev := PVal.undef }
      else if a = 1 then
        some { priority := 5, funcId := 1, context := PVal.addr 1,
               next := PVal.addr 1, prev := PVal.addr 1 }
      else none
    ctxs := fun c =>
      if c ≤ 1 then some { stackSp := PVal.addr c, stackSize := 16384, funcId := c }
      else none
    nodeAlloc := 2
    ctxAlloc := 2
    stackAlloc := 2
    head := PVal.addr 1
    size := 1
    active := PVal.addr 0
    freedNodes := []
    freedCtxs := []
    queueFreed := false
    guardAlive := true }

/-- A concrete drained state: empty ring with NULL head (as left behind by
the last removal) and an established active record 0 with context 0. -/
def csEmpty : State :=
  { nodes := fun a =>
      if a = 0 then
        some { priority := 1, funcId := 0, context := PVal.addr 0,
               next := PVal.undef, prev := PVal.undef }
      else none
    ctxs := fun c =>
      if c = 0 then some { stackSp := PVal.addr 0, stackSize := 16384, funcId := 0 }
      else none
    nodeAlloc := 1
    ctxAlloc := 1
    stackAlloc := 1
    head := PVal.null
    size := 0
    active := PVal.addr 0
    freedNodes := []
    freedCtxs := []
    queueFreed := false
    guardAlive := true }

/-- A state like the post-init state but with the initial thread's record
established as the active record (what SetAsEntry would have produced). -/
def mainState : State :=
  { nodes := fun a =>
      if a = 0 then
        some { priority := 0, funcId := 0, context := PVal.addr 0,
               next := PVal.undef, prev := PVal.undef }
      else none
    ctxs := fun c =>
      if c = 0 then some { stackSp := PVal.addr 0, stackSize := 16384, funcId := 0 }
      else none
    nodeAlloc := 1
    ctxAlloc := 1
    stackAlloc := 1
    head := PVal.undef
    size := 0
    active := PVal.addr 0
    freedNodes := []
    freedCtxs := []
    queueFreed := false
    guardAlive := true }

/-- Spawn(f = 10, 5); Spawn(g = 20, 5) from the established initial state:
the scenario-B state of the spec. -/
def scenarioB : State :=
  stepState (createOp (stepState (createOp mainState 10 5 true true true)) 20 5 true true true)

/-- Spawn(f = 10, 5); Spawn(g = 20, 5) right after system_init, with no
active record ever established — the literal scenario of the claim. -/
def traceNoInit : State :=
  stepState (createOp (stepState (createOp initState 10 5 true true true)) 20 5 true true true)

/-! ## Claim theorems -/

/-- C1: For every well-formed registry state, get_priority_thread returns a
ready record whose priority is numerically smallest among all currently
ready records (priority ≤ every other ready record's priority), removes
exactly that record from the ring (the remaining ring is pre ++ post), and
returns an empty (NULL) result when size == 0. -/
theorem C1_select_and_remove_min (fuel : Nat) (s : State) (l : List Nat)
    (hwf : QWF s l) (hfuel : l.length ≤ fuel) :
    (l = [] → getOp fuel s = some (PVal.null, s)) ∧
    (l ≠ [] → ∃ pre r post s', l = pre ++ r :: post ∧
      getOp fuel s = some (PVal.addr r, s') ∧
      (∀ x ∈ l, prio s.nodes r ≤ prio s.nodes x) ∧
      QWF s' (pre ++ post)) := by
  constructor
  · intro hl
    have hsz : s.size = 0 := by
      rw [hwf.1, hl]
      rfl
    simp [getOp, hsz]
  · intro hne
    obtain ⟨pre, r, post, s', heq, hget, _, hmin, hwf', _⟩ :=
      getOp_spec fuel s l hwf hne hfuel
    exact ⟨pre, r, post, s', heq, hget, hmin, hwf'⟩

/-- Witness for C1 at a concrete two-record ring (priorities 7 and 3). -/
theorem C1_witness :
    (QWF csA [1, 2] ∧ ([1, 2] : List Nat).length ≤ 2) ∧
    ((([1, 2] : List Nat) = [] → getOp 2 csA = some (PVal.null, csA)) ∧
     (([1, 2] : List Nat) ≠ [] → ∃ pre r post s',
       ([1, 2] : List Nat) = pre ++ r :: post ∧
       getOp 2 csA = some (PVal.addr r, s') ∧
       (∀ x ∈ ([1, 2] : List Nat), prio csA.nodes r ≤ prio csA.nodes x) ∧
       QWF s' (pre ++ post))) :=
  ⟨⟨by decide, by decide⟩, C1_select_and_remove_min 2 csA [1, 2] (by decide) (by decide)⟩

/-- C2 counterexample: the literal trace system_init; Spawn(f,5);
Spawn(g,5); Yield(5) from the initial thread does not make f run next: the
yield dereferences the never-assigned active pointer (system_init leaves
queue->active indeterminate), which is undefined behavior in the C code
and none in the model. -/
theorem C2_counterexample :
    traceNoInit.size = 2 ∧ traceNoInit.active = PVal.undef ∧
    (yieldOp 4 traceNoInit 5).isNone = true := by decide

/-- C2 amended: for any two ready records with equal priority the scan,
visiting records oldest-first with a strict less-than comparison, returns
the one enqueued earlier — every record strictly before the selected one
in the age-ordered ring list has strictly greater priority.  In
particular, from a state whose caller record is established as active
(which system_init fails to do, see C9), after Spawn(f,5); Spawn(g,5);
Yield(5), f (record 1, the older of the two equal-priority records) runs
next. -/
theorem C2_fifo_tie_break (fuel : Nat) (s : State) (l : List Nat)
    (hwf : QWF s l) (hne : l ≠ []) (hfuel : l.length ≤ fuel) :
    (∃ pre r post s', l = pre ++ r :: post ∧
      getOp fuel s = some (PVal.addr r, s') ∧
      (∀ x ∈ pre, prio s.nodes r < prio s.nodes x) ∧
      (∀ x ∈ l, prio s.nodes r ≤ prio s.nodes x) ∧
      QWF s' (pre ++ post)) ∧
    ((yieldOp 4 scenarioB 5).map (fun rs => (rs.1, rs.2.active)) =
        some (0, PVal.addr 1) ∧
      (scenarioB.nodes 1).map Node.funcId = some 10 ∧
      (scenarioB.nodes 2).map Node.funcId = some 20 ∧
      prio scenarioB.nodes 1 = 5 ∧ prio scenarioB.nodes 2 = 5) := by
  constructor
  · obtain ⟨pre, r, post, s', heq, hget, hstrict, hmin, hwf', _⟩ :=
      getOp_spec fuel s l hwf hne hfuel
    exact ⟨pre, r, post, s', heq, hget, hstrict, hmin, hwf'⟩
  · decide

/-- Witness for C2 at a concrete ring with two equal-priority records. -/
theorem C2_witness :
    (QWF csTie [1, 2] ∧ ([1, 2] : List Nat) ≠ [] ∧ ([1, 2] : List Nat).length ≤ 2) ∧
    ((∃ pre r post s', ([1, 2] : List Nat) = pre ++ r :: post ∧
        getOp 2 csTie = some (PVal.addr r, s') ∧
        (∀ x ∈ pre, prio csTie.nodes r < prio csTie.nodes x) ∧
        (∀ x ∈ ([1, 2] : List Nat), prio csTie.nodes r ≤ prio csTie.nodes x) ∧
        QWF s' (pre ++ post)) ∧
      ((yieldOp 4 scenarioB 5).map (fun rs => (rs.1, rs.2.active)) =
          some (0, PVal.addr 1) ∧
        (scenarioB.nodes 1).map Node.funcId = some 10 ∧
        (scenarioB.nodes 2).map Node.funcId = some 20 ∧
        prio scenarioB.nodes 1 = 5 ∧ prio scenarioB.nodes 2 = 5)) :=
  ⟨⟨by decide, by decide, by decide⟩,
    C2_fifo_tie_break 2 csTie [1, 2] (by decide) (by decide) (by decide)⟩

/-- C3 counterexample: with the record and context mallocs succeeding and
the stack malloc failing, uthread_create returns 0 (success) — not the
claimed failure — and the thread is registered anyway (size becomes 1). -/
theorem C3_counterexample :
    (createOp initState 7 5 true true false).map Prod.fst = some 0 ∧
    (createOp initState 7 5 true true false).map (fun rs => rs.2.size) = some 1 := by
  decide

/-- C3 amended: uthread_create returns -1 without crashing the caller
whenever memory for the record or for its context cannot be obtained, and
on every failure return the registry is unchanged (nothing is registered);
a stack allocation failure, however, is not detected by the code: the
enqueued thread's context keeps a NULL stack pointer and success (0) is
returned. -/
theorem C3_create_error_handling (s : State) (l : List Nat) (f : Nat) (p : Int)
    (o3 : Bool) (hwf : QWF s l) (halloc : ∀ x ∈ l, x < s.nodeAlloc) :
    (∀ o2, createOp s f p false o2 o3 = some (-1, s)) ∧
    (∃ s1, createOp s f p true false o3 = some (-1, s1) ∧
      s1.head = s.head ∧ s1.size = s.size ∧ s1.active = s.active ∧
      s1.freedNodes = s.freedNodes ∧ QWF s1 l) ∧
    (∃ s', createOp s f p true true o3 = some (0, s') ∧
      QWF s' (l ++ [s.nodeAlloc]) ∧
      (s'.nodes s.nodeAlloc).map Node.priority = some p ∧
      s'.active = s.active ∧
      (s'.ctxs s.ctxAlloc).map UContext.stackSp =
        some (if o3 then PVal.addr s.stackAlloc else PVal.null)) :=
  createOp_spec s l f p o3 hwf halloc

/-- Witness for C3 at the post-init state. -/
theorem C3_witness :
    (QWF initState [] ∧ (∀ x ∈ ([] : List Nat), x < initState.nodeAlloc)) ∧
    ((∀ o2, createOp initState 7 5 false o2 true = some (-1, initState)) ∧
     (∃ s1, createOp initState 7 5 true false true = some (-1, s1) ∧
       s1.head = initState.head ∧ s1.size = initState.size ∧
       s1.active = initState.active ∧
       s1.freedNodes = initState.freedNodes ∧ QWF s1 []) ∧
     (∃ s', createOp initState 7 5 true true true = some (0, s') ∧
       QWF s' ([] ++ [initState.nodeAlloc]) ∧
       (s'.nodes initState.nodeAlloc).map Node.priority = some 5 ∧
       s'.active = initState.active ∧
       (s'.ctxs initState.ctxAlloc).map UContext.stackSp =
         some (if true then PVal.addr initState.stackAlloc else PVal.null))) :=
  ⟨⟨by decide, by decide⟩,
    C3_create_error_handling initState [] 7 5 true (by decide) (by decide)⟩

/-- C4: uthread_yield on an empty registry returns -1 immediately and the
whole state is unchanged, so size remains 0 and active is untouched; the
caller keeps running. -/
theorem C4_yield_empty (fuel : Nat) (s : State) (p : Int) (hsz : s.size = 0) :
    yieldOp fuel s p = some (-1, s) := by
  simp [yieldOp, hsz]

/-- Witness for C4 at the post-init state. -/
theorem C4_witness :
    initState.size = 0 ∧ yieldOp 1 initState 7 = some (-1, initState) :=
  ⟨rfl, C4_yield_empty 1 initState 7 rfl⟩

/-- C5 counterexample: record 0 is active and yields with new priority 0,
strictly below the only ready record's priority 5 — so its new priority is
the minimum — yet the thread selected to run next is record 1, not the
caller: selection happens before reinsertion, over a ring that does not
contain the caller, so a thread can never yield to itself. -/
theorem C5_counterexample :
    csAct.active = PVal.addr 0 ∧
    prio csAct.nodes 1 = 5 ∧
    ((0 : Int) < 5) ∧
    (yieldOp 2 csAct 0).map (fun rs => rs.2.active) = some (PVal.addr 1) ∧
    PVal.addr 1 ≠ PVal.addr 0 := by decide

/-- C5 amended: in every successful yield the caller's priority field is
updated to newPriority before the caller is reinserted into the ring, and
the update is in force from then on (the caller rejoins the ring carrying
the new priority, affecting all later selections); but the selection made
in the same invocation runs before the reinsertion, over the ring, which
does not contain the caller — so the calling thread is never the thread
selected to run next in that same invocation. -/
theorem C5_yield_priority_update (fuel : Nat) (s : State) (l : List Nat)
    (act : Nat) (p : Int) (hwf : QWF s l) (hne : l ≠ [])
    (hact : s.active = PVal.addr act) (hactl : act ∉ l) (hactx : CtxOK s act)
    (hallctx : ∀ x ∈ l, CtxOK s x) (hfuel : l.length ≤ fuel) :
    ∃ pre r post s',
      l = pre ++ r :: post ∧
      yieldOp fuel s p = some (0, s') ∧
      r ≠ act ∧
      s'.active = PVal.addr r ∧
      (∀ x ∈ pre, prio s.nodes r < prio s.nodes x) ∧
      (∀ x ∈ l, prio s.nodes r ≤ prio s.nodes x) ∧
      prio s'.nodes act = p ∧
      QWF s' ((pre ++ post) ++ [act]) ∧
      s'.freedNodes = s.freedNodes ∧ s'.freedCtxs = s.freedCtxs ∧
      s'.guardAlive = s.guardAlive ∧ s'.queueFreed = s.queueFreed :=
  yieldOp_spec fuel s l act p hwf hne hact hactl hactx hallctx hfuel

/-- Witness for C5 at the single-ready-record state. -/
theorem C5_witness :
    (QWF csAct [1] ∧ csAct.active = PVal.addr 0 ∧ (0 : Nat) ∉ ([1] : List Nat) ∧
      CtxOK csAct 0 ∧ (∀ x ∈ ([1] : List Nat), CtxOK csAct x)) ∧
    (∃ pre r post s',
      ([1] : List Nat) = pre ++ r :: post ∧
      yieldOp 1 csAct 12 = some (0, s') ∧
      r ≠ 0 ∧
      s'.active = PVal.addr r ∧
      (∀ x ∈ pre, prio csAct.nodes r < prio csAct.nodes x) ∧
      (∀ x ∈ ([1] : List Nat), prio csAct.nodes r ≤ prio csAct.nodes x) ∧
      prio s'.nodes 0 = 12 ∧
      QWF s' ((pre ++ post) ++ [0]) ∧
      s'.freedNodes = csAct.freedNodes ∧ s'.freedCtxs = csAct.freedCtxs ∧
      s'.guardAlive = csAct.guardAlive ∧ s'.queueFreed = csAct.queueFreed) :=
  ⟨⟨by decide, rfl, by decide, by decide, by decide⟩,
    C5_yield_priority_update 1 csAct [1] 0 12 (by decide) (by decide) rfl
      (by decide) (by decide) (by decide) (by decide)⟩

/-- C6: the ring invariant is preserved by every registry operation.  On a
well-formed queue the ring, when non-empty, is fully connected circularly
in both directions — following prev or next from the head exactly size
times visits ring members and returns to the head, with size equal to the
number of members; Insert (add) preserves well-formedness, appending the
fresh record as the newest member; SelectAndRemoveHighestPriority
(get_priority_thread) preserves well-formedness on the remaining
members. -/
theorem C6_ring_invariant (s : State) (l : List Nat) (item : Nat) (nd : Node)
    (fuel : Nat) :
    (QWF s l → ∀ a t, l = a :: t →
      iterP s.nodes s.size a = some a ∧ iterN s.nodes s.size a = some a) ∧
    (QWF s l → item ∉ l → s.nodes item = some nd →
      ∃ s', addOp s item = some s' ∧ QWF s' (l ++ [item])) ∧
    (QWF s l → l ≠ [] → l.length ≤ fuel →
      ∃ pre r post s', l = pre ++ r :: post ∧
        getOp fuel s = some (PVal.addr r, s') ∧ QWF s' (pre ++ post)) := by
  refine ⟨?_, ?_, ?_⟩
  · intro hwf a t heql
    subst heql
    constructor
    · rw [hwf.1]
      exact ring_iterP hwf.2.2
    · rw [hwf.1]
      exact ring_iterN hwf.2.2
  · intro hwf hfresh hnd
    obtain ⟨s', h1, h2, _⟩ := addOp_spec s l item nd hwf hfresh hnd
    exact ⟨s', h1, h2⟩
  · intro hwf hne hfuel
    obtain ⟨pre, r, post, s', heq, hget, _, _, hwf', _⟩ :=
      getOp_spec fuel s l hwf hne hfuel
    exact ⟨pre, r, post, s', heq, hget, hwf'⟩

/-- Witness for C6 at a concrete two-record ring with a fresh record 0. -/
theorem C6_witness :
    QWF csA [1, 2] ∧
    (iterP csA.nodes csA.size 1 = some 1 ∧ iterN csA.nodes csA.size 1 = some 1) ∧
    (∃ s', addOp csA 0 = some s' ∧ QWF s' ([1, 2] ++ [0])) ∧
    (∃ pre r post s', ([1, 2] : List Nat) = pre ++ r :: post ∧
      getOp 2 csA = some (PVal.addr r, s') ∧ QWF s' (pre ++ post)) :=
  ⟨by decide,
   (C6_ring_invariant csA [1, 2] 0
       { priority := 9, funcId := 0, context := PVal.addr 0,
         next := PVal.undef, prev := PVal.undef } 2).1 (by decide) 1 [2] rfl,
   (C6_ring_invariant csA [1, 2] 0
       { priority := 9, funcId := 0, context := PVal.addr 0,
         next := PVal.undef, prev := PVal.undef } 2).2.1
     (by decide) (by decide) (by decide),
   (C6_ring_invariant csA [1, 2] 0
       { priority := 9, funcId := 0, context := PVal.addr 0,
         next := PVal.undef, prev := PVal.undef } 2).2.2
     (by decide) (by decide) (by decide)⟩

/-- C7 counterexample: exiting from a concrete state with one ready record
frees only the exiting record's storage (freedNodes becomes [0]); its
context allocation is not discarded — no context is ever freed (freedCtxs
stays empty) and the context at address 0 is still allocated after the
switch to record 1. -/
theorem C7_counterexample :
    (csAct.nodes 0).map Node.context = some (PVal.addr 0) ∧
    (exitOp 2 csAct).map (fun r => (resState r).freedNodes) = some [0] ∧
    (exitOp 2 csAct).map (fun r => (resState r).freedCtxs) = some [] ∧
    (exitOp 2 csAct).map (fun r => ((resState r).ctxs 0).isSome) = some true ∧
    (exitOp 2 csAct).map resTarget = some (some 1) := by decide

/-- C7 amended: for every exit with a non-empty registry, the
highest-priority ready record r is selected and removed, the exiting
record's record storage is discarded — but its context allocation is not
freed (the code frees only the record) — r becomes active, and control
transfers directly into r's context via an ExitRes.switched result, which
never returns to the exiting code. -/
theorem C7_exit_switch (fuel : Nat) (s : State) (l : List Nat) (act : Nat)
    (hwf : QWF s l) (hne : l ≠ []) (hact : s.active = PVal.addr act)
    (hallctx : ∀ x ∈ l, CtxOK s x) (hfuel : l.length ≤ fuel) :
    ∃ pre r post s',
      l = pre ++ r :: post ∧
      exitOp fuel s = some (ExitRes.switched r s') ∧
      (∀ x ∈ pre, prio s.nodes r < prio s.nodes x) ∧
      (∀ x ∈ l, prio s.nodes r ≤ prio s.nodes x) ∧
      s'.active = PVal.addr r ∧
      s'.freedNodes = s.freedNodes ++ [act] ∧
      s'.freedCtxs = s.freedCtxs ∧
      s'.ctxs = s.ctxs ∧
      QWF s' (pre ++ post) ∧
      s'.guardAlive = s.guardAlive ∧ s'.queueFreed = s.queueFreed :=
  exitOp_spec fuel s l act hwf hne hact hallctx hfuel

/-- Witness for C7 at the single-ready-record state. -/
theorem C7_witness :
    (QWF csAct [1] ∧ csAct.active = PVal.addr 0 ∧
      (∀ x ∈ ([1] : List Nat), CtxOK csAct x)) ∧
    (∃ pre r post s',
      ([1] : List Nat) = pre ++ r :: post ∧
      exitOp 1 csAct = some (ExitRes.switched r s') ∧
      (∀ x ∈ pre, prio csAct.nodes r < prio csAct.nodes x) ∧
      (∀ x ∈ ([1] : List Nat), prio csAct.nodes r ≤ prio csAct.nodes x) ∧
      s'.active = PVal.addr r ∧
      s'.freedNodes = csAct.freedNodes ++ [0] ∧
      s'.freedCtxs = csAct.freedCtxs ∧
      s'.ctxs = csAct.ctxs ∧
      QWF s' (pre ++ post) ∧
      s'.guardAlive = csAct.guardAlive ∧ s'.queueFreed = csAct.queueFreed) :=
  ⟨⟨by decide, rfl, by decide⟩,
    C7_exit_switch 1 csAct [1] 0 (by decide) (by decide) rfl (by decide) (by decide)⟩

/-- C8 counterexample: on the drained empty state the terminal exit path
returns status 0 but releases only the active record's storage, not its
owned context allocation (no context is freed and context 0 survives), so
not all of the active record's owned memory is released; moreover the
claim's universal reading fails right after system_init, where the exit
path reads the still-indeterminate head and active pointers — undefined
behavior (none in the model). -/
theorem C8_counterexample :
    (csEmpty.nodes 0).map Node.context = some (PVal.addr 0) ∧
    (exitOp 1 csEmpty).map resCode = some (some 0) ∧
    (exitOp 1 csEmpty).map (fun r => (resState r).freedCtxs) = some [] ∧
    (exitOp 1 csEmpty).map (fun r => ((resState r).ctxs 0).isSome) = some true ∧
    (exitOp 1 initState).isNone = true := by decide

/-- C8 amended: for every exit call on an empty registry whose head is
NULL and whose active record is established, all registry state is torn
down — there are no ready records to free, the active record's storage is
freed and the queue structure is released — the guard is destroyed
(semaphore dead), and the process terminates immediately with successful
exit status 0; the active record's context allocation is not freed.  The
path is a normal termination, not an error. -/
theorem C8_exit_terminate (fuel : Nat) (s : State) (act : Nat)
    (hsz : s.size = 0) (hhd : s.head = PVal.null)
    (hact : s.active = PVal.addr act) (hfuel : 1 ≤ fuel) :
    ∃ s', exitOp fuel s = some (ExitRes.terminated 0 s') ∧
      s'.freedNodes = s.freedNodes ++ [act] ∧
      s'.freedCtxs = s.freedCtxs ∧ s'.ctxs = s.ctxs ∧ s'.nodes = s.nodes ∧
      s'.queueFreed = true ∧ s'.guardAlive = false :=
  exit_empty_spec fuel s act hsz hhd hact hfuel

/-- Witness for C8 at the drained empty state. -/
theorem C8_witness :
    (csEmpty.size = 0 ∧ csEmpty.head = PVal.null ∧
      csEmpty.active = PVal.addr 0) ∧
    (∃ s', exitOp 1 csEmpty = some (ExitRes.terminated 0 s') ∧
      s'.freedNodes = csEmpty.freedNodes ++ [0] ∧
      s'.freedCtxs = csEmpty.freedCtxs ∧ s'.ctxs = csEmpty.ctxs ∧
      s'.nodes = csEmpty.nodes ∧
      s'.queueFreed = true ∧ s'.guardAlive = false) :=
  ⟨⟨rfl, rfl, rfl⟩, C8_exit_terminate 1 csEmpty 0 rfl rfl rfl (by decide)⟩

/-- C9: the code contradicts the claim: system_init never marks any
context as the active record (queue->active, like queue->head, is left
indeterminate — only size is assigned), so the first Yield or Exit issued
by the initial thread does not operate on an established active record.
On the repo's own driver trace (system_init; uthread_create;
uthread_exit) the exit path calls free on the indeterminate active
pointer, and a first yield would write through it — both undefined
behavior, modelled as none. -/
theorem C9_active_never_established :
    initState.active = PVal.undef ∧ initState.head = PVal.undef ∧
    (createOp initState 10 2 true true true).map
      (fun rs => ((exitOp 4 rs.2).isNone, (yieldOp 4 rs.2 7).isNone)) =
      some (true, true) := by decide

/-- C10: the cleanup_queue traversal terminates only when invoked on an
empty ring with NULL head: on any well-formed non-empty ring every
member's next pointer holds the address of a ring member (never NULL), so
the traversal never completes, whatever the fuel bound; with head == NULL
it terminates immediately.  Termination of the exit teardown path
therefore rests on the precondition size == 0 together with head ==
NULL. -/
theorem C10_cleanup_termination (s : State) (a0 : Nat) (t : List Nat) :
    (QWF s (a0 :: t) →
      (∀ y ∈ a0 :: t, ∃ x ∈ a0 :: t, nextAt s.nodes y = some (PVal.addr x)) ∧
      (∀ fuel acc, cleanupLoop s.nodes fuel s.head acc = none)) ∧
    (s.head = PVal.null →
      ∀ fuel acc, cleanupLoop s.nodes (fuel + 1) s.head acc = some acc) := by
  constructor
  · intro hwf
    refine ⟨ring_next_mem hwf.2.2, ?_⟩
    intro fuel acc
    have hhd : s.head = PVal.addr a0 := hwf.2.1
    rw [hhd]
    exact cleanupLoop_nonterm hwf.2.2 fuel a0 acc (List.mem_cons_self a0 t)
  · intro hhd fuel acc
    rw [hhd]
    exact cleanupLoop_null s.nodes fuel acc

/-- Witness for C10: the traversal is stuck on a concrete two-record ring
and terminates at once on the drained state with NULL head. -/
theorem C10_witness :
    QWF csA [1, 2] ∧
    cleanupLoop csA.nodes 9 csA.head [] = none ∧
    csEmpty.head = PVal.null ∧
    cleanupLoop csEmpty.nodes 1 csEmpty.head [] = some [] :=
  ⟨by decide,
   ((C10_cleanup_termination csA 1 [2]).1 (by decide)).2 9 [],
   rfl,
   (C10_cleanup_termination csEmpty 0 []).2 rfl 0 []⟩

end Uthread
